import Mathlib

/-!
Verification of the coolc-rs lexer core (src/lexer: lexer.rs, rule.rs,
cursor.rs; src/common: lib.rs).

The main embedding is character-level: a Rust `&str` is modelled as a
`List Char` (the `Chars` iterator that every scanning loop in the source
walks), and all lengths are counted in characters.  This is exact for
ASCII input; the byte-level behaviour of `&str` index slicing and of
`Cursor::consumed_len` (which both count UTF-8 bytes) is modelled
separately at the end of the file with explicit `Char.utf8Size`
accounting.

Statefulness: every scanning rule resets its scratch state at the start
of each scan, so a rule's `accept` can recompute the scan from the slice
it is handed (the driver always hands `accept` the same slice the
winning rule's `try_match` just saw).  The single exception is
`BlockCommentRule`: its bare `*)` early return in `try_match` skips the
reset, so its `accept` reads the `number_of_lines` left over from the
rule's most recent comment scan.  That one field is threaded through the
driver state (`LexState.blockLines`) exactly as the mutable rule
instance carries it in the source.
-/

/-- Keyword vocabulary, from `common::KeywordKind`. -/
inductive KeywordKind where
  | kClass | kElse | kFi | kIf | kIn | kInherits | kIsVoid | kLet | kLoop
  | kPool | kThen | kWhile | kCase | kEsac | kNew | kOf | kNot
  deriving DecidableEq, Repr

/-- Token classification, from `common::TokenKind`.  Text payloads are
`List Char` (the source stores `String`s built from the same chars). -/
inductive TokenKind where
  | whitespace
  | objectId (s : List Char)
  | typeId (s : List Char)
  | int (s : List Char)
  | string (s : List Char)
  | bool (b : Bool)
  | lineComment
  | blockComment
  | keyword (k : KeywordKind)
  | plus | minus | star | slash | tilde | lt | le | dArrow | assign
  | colon | comma | dot | equal | openParen | closeParen
  | openBrace | closeBrace | atSign | semiColon
  | error (msg : List Char)
  deriving DecidableEq, Repr

/-- A token: classification plus matched length, from `common::Token`
(the borrowed source slice is dropped; `length` determines it). -/
structure Token where
  kind : TokenKind
  length : Nat
  deriving DecidableEq, Repr

def msgEofString : List Char := "EOF in string constant.".toList
def msgNullString : List Char := "String contains null character.".toList
def msgUntermString : List Char := "Unterminated string constant.".toList
def msgEscNullString : List Char := "String contains escaped null character.".toList
def msgEofComment : List Char := "EOF in comment".toList
def msgUnmatched : List Char := "Unmatched *)".toList

/-- Number of newline characters in a char list. -/
def countNl (cs : List Char) : Nat := cs.count '\n'

/-- `Cursor::length_including`: characters up to and including the first
occurrence of any delimiter, or the whole remaining length if none. -/
def lengthIncluding (delims : List Char) (cs : List Char) : Nat :=
  match cs.findIdx? (fun c => delims.contains c) with
  | some p => p + 1
  | none => cs.length

/-- Result of `StringRule::consume_string`: consumed length (including
the opening quote), payload (unescaped value on success, diagnostic on
error), pending line delta, and the recovery-consume distance. -/
inductive StrRes where
  | ok (consumed : Nat) (value : List Char) (lines : Nat)
  | er (consumed : Nat) (msg : List Char) (lines : Nat) (recovery : Option Nat)
  deriving DecidableEq, Repr

def StrRes.consumed : StrRes → Nat
  | .ok c _ _ => c
  | .er c _ _ _ => c

def StrRes.lines : StrRes → Nat
  | .ok _ _ l => l
  | .er _ _ l _ => l

def StrRes.recovery : StrRes → Option Nat
  | .ok _ _ _ => none
  | .er _ _ _ r => r

/-- The scanning loop of `StringRule::consume_string`, one constructor
branch per classification of the next character, in the source's check
order (EOF, raw NUL, bare newline, backslash escape, closing quote,
ordinary character).  `consumed` starts at 1: the opening quote was
bumped by `try_match` before the loop. -/
def consumeStringAux : List Char → Nat → Nat → List Char → StrRes
  | [], consumed, lines, _ => .er consumed msgEofString lines none
  | c :: rest, consumed, lines, buf =>
    if c = '\x00' then
      .er consumed msgNullString lines (some (lengthIncluding ['\n', '"'] (c :: rest)))
    else if c = '\n' then
      .er (consumed + 1) msgUntermString (lines + 1) none
    else if c = '\\' then
      match rest with
      | [] =>
        -- peek is a backslash but there is no second char: the escape
        -- branch is skipped and the backslash is consumed literally
        consumeStringAux [] (consumed + 1) lines (buf ++ ['\\'])
      | d :: rest2 =>
        if d = 'b' then consumeStringAux rest2 (consumed + 2) lines (buf ++ ['\x08'])
        else if d = 't' then consumeStringAux rest2 (consumed + 2) lines (buf ++ ['\t'])
        else if d = 'n' then consumeStringAux rest2 (consumed + 2) lines (buf ++ ['\n'])
        else if d = 'f' then consumeStringAux rest2 (consumed + 2) lines (buf ++ ['\x0C'])
        else if d = '\n' then consumeStringAux rest2 (consumed + 2) (lines + 1) (buf ++ ['\n'])
        else if d = '\x00' then
          .er (consumed + 2) msgEscNullString lines (some (lengthIncluding ['\n', '"'] rest2))
        else consumeStringAux rest2 (consumed + 2) lines (buf ++ [d])
    else if c = '"' then
      .ok (consumed + 1) buf lines
    else
      consumeStringAux rest (consumed + 1) lines (buf ++ [c])

/-- `StringRule::try_match`: requires a leading quote, then scans. -/
def stringTryMatch (s : List Char) : Option Token :=
  match s with
  | '"' :: rest =>
    match consumeStringAux rest 1 0 [] with
    | .ok c v _ => some ⟨.string v, c⟩
    | .er c m _ _ => some ⟨.error m, c⟩
  | _ => none

/-- Scan metadata (`number_of_lines`, `recovery_consume`) that
`StringRule::accept` reads from the rule state its `try_match` just
wrote; recomputed here from the same slice. -/
def stringScanInfo (s : List Char) : Nat × Option Nat :=
  match s with
  | '"' :: rest =>
    match consumeStringAux rest 1 0 [] with
    | .ok _ _ l => (l, none)
    | .er _ _ l r => (l, r)
  | _ => (0, none)

/-- Result of `BlockCommentRule::consume_comment`. -/
inductive CmtRes where
  | ok (consumed : Nat) (lines : Nat)
  | er (consumed : Nat) (msg : List Char) (lines : Nat)
  deriving DecidableEq, Repr

def CmtRes.consumed : CmtRes → Nat
  | .ok c _ => c
  | .er c _ _ => c

def CmtRes.lines : CmtRes → Nat
  | .ok _ l => l
  | .er _ _ l => l

/-- The loop of `BlockCommentRule::consume_comment`: a signed depth
counter, bumped on `(*`, dropped on `*)` (success at 0, error below 0),
newlines counted, any other character skipped. -/
def consumeCommentAux : List Char → Int → Nat → Nat → CmtRes
  | [], _, lines, consumed => .er consumed msgEofComment lines
  | '(' :: '*' :: rest, depth, lines, consumed =>
    consumeCommentAux rest (depth + 1) lines (consumed + 2)
  | '*' :: ')' :: rest, depth, lines, consumed =>
    if depth - 1 = 0 then .ok (consumed + 2) lines
    else if depth - 1 < 0 then .er (consumed + 2) msgUnmatched lines
    else consumeCommentAux rest (depth - 1) lines (consumed + 2)
  | '\n' :: rest, depth, lines, consumed =>
    consumeCommentAux rest depth (lines + 1) (consumed + 1)
  | _ :: rest, depth, lines, consumed =>
    consumeCommentAux rest depth lines (consumed + 1)

/-- `consume_comment` entered with freshly reset state (depth 0,
lines 0) at position 0 of the slice. -/
def commentScan (s : List Char) : CmtRes :=
  consumeCommentAux s 0 0 0

/-- `BlockCommentRule::try_match`: a bare leading `*)` is an immediate
fixed-length error; only a leading `(*` starts a scan. -/
def blockTryMatch (s : List Char) : Option Token :=
  if s.take 2 = ['*', ')'] then
    some ⟨.error msgUnmatched, 2⟩
  else if s.take 2 = ['(', '*'] then
    match commentScan s with
    | .ok c _ => some ⟨.blockComment, c⟩
    | .er c m _ => some ⟨.error m, c⟩
  else none

/-- `KeywordRule::try_match`'s case-insensitive prefix test for one key:
`source.len() >= key.len() && source[..key.len()].to_lowercase() ==
key.to_lowercase()`. -/
def kwMatchesB (s k : List Char) : Bool :=
  decide (k.length ≤ s.length) && ((s.take k.length).map Char.toLower == k.map Char.toLower)

/-- The `filter(..).last()` pipeline of `KeywordRule::try_match`: a key
passes only if its length is at least the running best length and it
matches; the last passing entry is returned.  `n` is the captured
`longest_match_length`. -/
def kwSelect (s : List Char) : List (List Char × KeywordKind) → Nat →
    Option (List Char × KeywordKind)
  | [], _ => none
  | (k, kd) :: rest, n =>
    if n > k.length then kwSelect s rest n
    else if kwMatchesB s k then
      match kwSelect s rest k.length with
      | some e => some e
      | none => some (k, kd)
    else kwSelect s rest n

def kwTryMatch (mapping : List (List Char × KeywordKind)) (s : List Char) : Option Token :=
  (kwSelect s mapping 0).map (fun e => ⟨.keyword e.2, e.1.length⟩)

/-- Character class of the whitespace rule's pattern `[ \t\r\f\v]+`
(note: no newline; newlines have their own rule). -/
def isWsClass (c : Char) : Bool :=
  c = ' ' || c = '\t' || c = '\r' || c = '\x0C' || c = '\x0B'

def isDigitCh (c : Char) : Bool := '0' ≤ c && c ≤ '9'
def isUpperCh (c : Char) : Bool := 'A' ≤ c && c ≤ 'Z'
def isLowerCh (c : Char) : Bool := 'a' ≤ c && c ≤ 'z'
def isWordCh (c : Char) : Bool :=
  isUpperCh c || isLowerCh c || isDigitCh c || c = '_'

/-- The registered rule behaviours of `main.rs::rules()`, as a closed
variant type.  Each regex-backed rule is embedded as the anchored
matcher its pattern denotes under the regex crate's leftmost-first
semantics. -/
inductive Rule where
  | keywordR (mapping : List (List Char × KeywordKind))
  | literalR (lit : List Char) (kind : TokenKind)
  | blockCommentR
  | lineCommentR
  | stringR
  | boolTrueR
  | boolFalseR
  | intR
  | typeIdR
  | objectIdR
  | newlineR
  | whitespaceR
  | catchAllR
  deriving DecidableEq, Repr

/-- `try_match` for every rule.  Pure: each rule's returned token is a
function of the slice alone (scratch state is reset before use). -/
def tryMatch : Rule → List Char → Option Token
  | .keywordR mapping, s => kwTryMatch mapping s
  | .literalR lit kind, s =>
    -- LiteralRule: exact prefix equality
    if lit.length ≤ s.length ∧ s.take lit.length = lit then some ⟨kind, lit.length⟩ else none
  | .blockCommentR, s => blockTryMatch s
  | .lineCommentR, s =>
    -- regex \A(?:--[^\n]*$), multi-line: the token covers the dashes and
    -- the maximal run of non-newline characters
    match s with
    | '-' :: '-' :: rest => some ⟨.lineComment, 2 + (rest.takeWhile (fun c => c ≠ '\n')).length⟩
    | _ => none
  | .stringR, s => stringTryMatch s
  | .boolTrueR, s =>
    -- regex \A(?:t(?i:rue)): lowercase t, then rue case-insensitively
    match s with
    | 't' :: a :: b :: c :: _ =>
      if a.toLower = 'r' ∧ b.toLower = 'u' ∧ c.toLower = 'e' then
        some ⟨.bool true, 4⟩
      else none
    | _ => none
  | .boolFalseR, s =>
    -- regex \A(?:f(?i:alse))
    match s with
    | 'f' :: a :: b :: c :: d :: _ =>
      if a.toLower = 'a' ∧ b.toLower = 'l' ∧ c.toLower = 's' ∧ d.toLower = 'e' then
        some ⟨.bool false, 5⟩
      else none
    | _ => none
  | .intR, s =>
    -- regex \A(?:[0-9]+), greedy
    let ds := s.takeWhile isDigitCh
    if ds.length = 0 then none else some ⟨.int ds, ds.length⟩
  | .typeIdR, s =>
    -- regex \A(?:(SELF_TYPE|[A-Z][A-Za-z0-9_]*)), leftmost-first: the
    -- literal alternative is preferred when it matches
    if s.take 9 = "SELF_TYPE".toList then some ⟨.typeId "SELF_TYPE".toList, 9⟩
    else
      match s with
      | c :: rest =>
        if isUpperCh c then
          let w := c :: rest.takeWhile isWordCh
          some ⟨.typeId w, w.length⟩
        else none
      | [] => none
  | .objectIdR, s =>
    -- regex \A(?:(self|[a-z][A-Za-z0-9_]*)), leftmost-first
    if s.take 4 = "self".toList then some ⟨.objectId "self".toList, 4⟩
    else
      match s with
      | c :: rest =>
        if isLowerCh c then
          let w := c :: rest.takeWhile isWordCh
          some ⟨.objectId w, w.length⟩
        else none
      | [] => none
  | .newlineR, s =>
    -- regex \A(?:\n)
    match s with
    | '\n' :: _ => some ⟨.whitespace, 1⟩
    | _ => none
  | .whitespaceR, s =>
    -- regex \A(?:[ \t\r\f\v]+), greedy
    let w := s.takeWhile isWsClass
    if w.length = 0 then none else some ⟨.whitespace, w.length⟩
  | .catchAllR, s =>
    -- regex \A(?:.) with dot-matches-newline: any single character,
    -- refined to an error token carrying the matched text
    match s with
    | c :: _ => some ⟨.error [c], 1⟩
    | [] => none

/-- Per-scan driver state: the `LexerContext` line counter plus the one
piece of rule state that outlives a single arbitration round
(`BlockCommentRule::number_of_lines`, see the header comment). -/
structure LexState where
  line : Nat
  blockLines : Nat
  deriving DecidableEq, Repr

/-- `accept` for every rule: new remaining slice and updated state. -/
def acceptR : Rule → Token → LexState → List Char → List Char × LexState
  | .stringR, tok, st, cur =>
    -- context.line_number += self.number_of_lines, then slice past
    -- token.length plus any recovery-consume distance
    let info := stringScanInfo cur
    (cur.drop (tok.length + (info.2.getD 0)), { st with line := st.line + info.1 })
  | .blockCommentR, tok, st, cur =>
    -- context.line_number += self.number_of_lines (the threaded field)
    (cur.drop tok.length, { st with line := st.line + st.blockLines })
  | .lineCommentR, tok, st, cur =>
    -- custom accepting fn: at EOF return ""; otherwise also eat the
    -- terminating newline the token does not cover, bumping the line
    if cur.length ≤ tok.length then ([], st)
    else (cur.drop (tok.length + 1), { st with line := st.line + 1 })
  | .newlineR, _, st, cur =>
    -- custom accepting fn: bump the line counter and eat the newline
    (cur.drop 1, { st with line := st.line + 1 })
  | _, tok, st, cur =>
    -- default accept: slice past the token
    (cur.drop tok.length, st)

/-- The state effect of calling a rule's `try_match` during the driver's
per-position sweep over all rules.  Only `BlockCommentRule` has an
effect that a later round can observe: a `(*`-led scan overwrites its
`number_of_lines`; the bare `*)` early return and the no-match return
leave it untouched. -/
def tryEffect : Rule → LexState → List Char → LexState
  | .blockCommentR, st, cur =>
    if cur.take 2 = ['*', ')'] then st
    else if cur.take 2 = ['(', '*'] then { st with blockLines := (commentScan cur).lines }
    else st
  | _, st, _ => st

def stepState (rules : List Rule) (st : LexState) (cur : List Char) : LexState :=
  rules.foldl (fun s r => tryEffect r s cur) st

/-- The arbitration loop body of `Lexer::lex`: examine each rule in
registration order, replacing the best match only on a strictly greater
length. -/
def arbAux (cur : List Char) : List Rule → Option (Nat × Rule × Token) →
    Option (Nat × Rule × Token)
  | [], best => best
  | r :: rest, best =>
    match tryMatch r cur with
    | some tok =>
      match best with
      | none => arbAux cur rest (some (tok.length, r, tok))
      | some b =>
        if tok.length > b.1 then arbAux cur rest (some (tok.length, r, tok))
        else arbAux cur rest best
    | none => arbAux cur rest best

def arbitrate (rules : List Rule) (cur : List Char) : Option (Nat × Rule × Token) :=
  arbAux cur rules none

/-- The driver loop of `Lexer::lex`, with explicit fuel (one unit per
iteration); `none` models both fuel exhaustion and the `expect` panic on
"no rule matched". -/
def lexFuel : Nat → List Rule → LexState → List Char → Option (List (Token × Nat))
  | _, _, _, [] => some []
  | 0, _, _, _ :: _ => none
  | fuel + 1, rules, st, cur =>
    match arbitrate rules cur with
    | none => none
    | some (_, r, tok) =>
      let st1 := stepState rules st cur
      let (cur2, st2) := acceptR r tok st1 cur
      (lexFuel fuel rules st2 cur2).map (fun out => (tok, st2.line) :: out)

/-- `Lexer::lex` over a fresh context: an input of length L is given L
units of fuel, one per loop iteration. -/
def lex (rules : List Rule) (s : List Char) : Option (List (Token × Nat)) :=
  lexFuel s.length rules ⟨1, 0⟩ s

/-- The keyword mapping registered in `main.rs::rules()` (the duplicate
`not` entry collapses in the source's `HashMap`; it is kept here). -/
def coolKeywords : List (List Char × KeywordKind) :=
  [ ("class".toList, .kClass), ("else".toList, .kElse), ("fi".toList, .kFi),
    ("if".toList, .kIf), ("in".toList, .kIn), ("inherits".toList, .kInherits),
    ("isvoid".toList, .kIsVoid), ("let".toList, .kLet), ("loop".toList, .kLoop),
    ("pool".toList, .kPool), ("then".toList, .kThen), ("while".toList, .kWhile),
    ("case".toList, .kCase), ("esac".toList, .kEsac), ("new".toList, .kNew),
    ("of".toList, .kOf), ("not".toList, .kNot), ("not".toList, .kNot) ]

/-- The full registered rule list of `main.rs::rules()`, in registration
order, parameterised by the keyword mapping's iteration order (the
source stores the mapping in a `HashMap`, whose iteration order is
unspecified). -/
def coolRulesWith (kw : List (List Char × KeywordKind)) : List Rule :=
  [ .keywordR kw,
    .literalR "<=".toList .le,
    .literalR "=>".toList .dArrow,
    .literalR "<-".toList .assign,
    .blockCommentR,
    .lineCommentR,
    .stringR,
    .literalR "\x7b".toList .openBrace,
    .literalR "\x7d".toList .closeBrace,
    .literalR "(".toList .openParen,
    .literalR ")".toList .closeParen,
    .literalR ":".toList .colon,
    .literalR ";".toList .semiColon,
    .literalR "@".toList .atSign,
    .literalR ".".toList .dot,
    .literalR ",".toList .comma,
    .literalR "=".toList .equal,
    .literalR "~".toList .tilde,
    .literalR "+".toList .plus,
    .literalR "-".toList .minus,
    .literalR "*".toList .star,
    .literalR "/".toList .slash,
    .literalR "<".toList .lt,
    .boolTrueR,
    .boolFalseR,
    .intR,
    .typeIdR,
    .objectIdR,
    .newlineR,
    .whitespaceR,
    .catchAllR ]

/-- The registered rule list with the mapping as written in the
source. -/
def coolRules : List Rule := coolRulesWith coolKeywords

/-!
Byte-level model.  A Rust `&str` is UTF-8 bytes; `str::len`, index
slicing and `Cursor::consumed_len` all count bytes.  Index slicing
`&s[0..n]` panics when `n` is not a character boundary; a panicking
slice is modelled as `none`.
-/

/-- The UTF-8 encoding of one scalar value (standard bit layout). -/
def utf8Bytes (c : Char) : List Nat :=
  let n := c.toNat
  if n < 0x80 then [n]
  else if n < 0x800 then [0xC0 + n / 64, 0x80 + n % 64]
  else if n < 0x10000 then [0xE0 + n / 4096, 0x80 + n / 64 % 64, 0x80 + n % 64]
  else [0xF0 + n / 262144, 0x80 + n / 4096 % 64, 0x80 + n / 64 % 64, 0x80 + n % 64]

/-- UTF-8 width of one character. -/
def charSize (c : Char) : Nat := (utf8Bytes c).length

/-- `str::len`: byte length of the text. -/
def byteLen (cs : List Char) : Nat := (cs.map charSize).sum

/-- The full UTF-8 byte sequence of the text. -/
def utf8Enc (cs : List Char) : List Nat := (cs.map utf8Bytes).flatten

/-- The byte slice `&s[0..n]`, as the characters it covers: `none` when
byte offset `n` falls strictly inside a character (the Rust slice
panics there). -/
def sliceBytesAt : List Char → Nat → Option (List Char)
  | _, 0 => some []
  | [], _ + 1 => none
  | c :: rest, n + 1 =>
    if charSize c ≤ n + 1 then
      (sliceBytesAt rest (n + 1 - charSize c)).map (fun t => c :: t)
    else none

/-- `Cursor::peek_many`: `&s[0..n]` when at least `n` bytes remain,
otherwise the whole remaining text. -/
def peekManyB (cs : List Char) (n : Nat) : Option (List Char) :=
  if n ≤ byteLen cs then sliceBytesAt cs n else some cs

/-- Byte-aware cursor, from `cursor.rs`: `initial_len` is the byte
length at construction, `chars` the remaining character iterator. -/
structure CursorB where
  initialLen : Nat
  chars : List Char
  deriving Repr

/-- `From<&str> for Cursor`. -/
def CursorB.fromStr (s : List Char) : CursorB := ⟨byteLen s, s⟩

/-- `Cursor::bump`: consume and return the next character. -/
def CursorB.bump : CursorB → Option Char × CursorB
  | ⟨il, []⟩ => (none, ⟨il, []⟩)
  | ⟨il, c :: rest⟩ => (some c, ⟨il, rest⟩)

/-- `Cursor::consumed_len`: `initial_len - chars.as_str().len()`, both
in bytes. -/
def CursorB.consumedLen (cur : CursorB) : Nat := cur.initialLen - byteLen cur.chars

/-- `n` successive bumps. -/
def bumpN : Nat → CursorB → CursorB
  | 0, cur => cur
  | n + 1, cur => bumpN n (cur.bump).2

/-- A rule at the byte level: `try_match` may panic (`none`). -/
structure RuleB where
  tryM : List Char → Option (Option Token)
  acc : Token → LexState → List Char → List Char × LexState
  eff : LexState → List Char → LexState

/-- `BlockCommentRule::try_match` with its two `peek_many(2)` calls
done at the byte level. -/
def blockTryMatchB (s : List Char) : Option (Option Token) :=
  match peekManyB s 2 with
  | none => none
  | some ft =>
    if ft = ['*', ')'] then some (some ⟨.error msgUnmatched, 2⟩)
    else
      match peekManyB s 2 with
      | none => none
      | some ft2 =>
        if ft2 = ['(', '*'] then
          some (match commentScan s with
            | .ok c _ => some ⟨.blockComment, c⟩
            | .er c m _ => some ⟨.error m, c⟩)
        else some none

def blockB : RuleB :=
  ⟨blockTryMatchB, acceptR .blockCommentR, tryEffect .blockCommentR⟩

/-- The arbitration sweep with panic propagation: the driver's for-loop
calls `try_match` on every registered rule, so a panic in any of them
aborts the scan. -/
def arbAuxB (cur : List Char) : List RuleB → Option (Nat × RuleB × Token) →
    Option (Option (Nat × RuleB × Token))
  | [], best => some best
  | r :: rest, best =>
    match r.tryM cur with
    | none => none
    | some none => arbAuxB cur rest best
    | some (some tok) =>
      match best with
      | none => arbAuxB cur rest (some (tok.length, r, tok))
      | some b =>
        if tok.length > b.1 then arbAuxB cur rest (some (tok.length, r, tok))
        else arbAuxB cur rest best

/-- Byte-aware driver: `none` models a panic (in a rule's `try_match`,
on the no-match `expect`, or fuel exhaustion). -/
def lexFuelB : Nat → List RuleB → LexState → List Char → Option (List (Token × Nat))
  | _, _, _, [] => some []
  | 0, _, _, _ :: _ => none
  | fuel + 1, rules, st, cur =>
    match arbAuxB cur rules none with
    | none => none
    | some none => none
    | some (some (_, r, tok)) =>
      let st1 := rules.foldl (fun s rb => rb.eff s cur) st
      let (cur2, st2) := r.acc tok st1 cur
      (lexFuelB fuel rules st2 cur2).map (fun out => (tok, st2.line) :: out)

def lexB (rules : List RuleB) (s : List Char) : Option (List (Token × Nat)) :=
  lexFuelB s.length rules ⟨1, 0⟩ s

/-! ## Supporting lemmas -/

theorem charSize_pos (c : Char) : 1 ≤ charSize c := by
  simp only [charSize, utf8Bytes]
  split
  · simp
  · split
    · simp
    · split <;> simp

theorem byteLen_append (a b : List Char) : byteLen (a ++ b) = byteLen a + byteLen b := by
  simp [byteLen]

theorem byteLen_take_drop (n : Nat) (s : List Char) :
    byteLen (s.take n) + byteLen (s.drop n) = byteLen s := by
  rw [← byteLen_append, List.take_append_drop]

theorem bumpN_mk (n : Nat) (il : Nat) (s : List Char) :
    bumpN n ⟨il, s⟩ = ⟨il, s.drop n⟩ := by
  induction n generalizing s with
  | zero => simp [bumpN]
  | succ n ih =>
    cases s with
    | nil => simp [bumpN, CursorB.bump, ih]
    | cons c rest => simp [bumpN, CursorB.bump, ih]

theorem byteLen_ascii (s : List Char) (h : ∀ c ∈ s, charSize c = 1) :
    byteLen s = s.length := by
  induction s with
  | nil => rfl
  | cons c rest ih =>
    have hc := h c (by simp)
    have := ih (fun x hx => h x (by simp [hx]))
    simp [byteLen] at this ⊢
    omega

/-- C9 amended, general form: after any number of bumps, `consumed_len`
is the UTF-8 byte length of the consumed prefix; on all-ASCII input that
is also the number of characters consumed. -/
theorem consumedLen_eq_bytes (s : List Char) (n : Nat) :
    (bumpN n (CursorB.fromStr s)).consumedLen = byteLen (s.take n) ∧
    ((∀ c ∈ s, charSize c = 1) →
      (bumpN n (CursorB.fromStr s)).consumedLen = min n s.length) := by
  have hb : bumpN n (CursorB.fromStr s) = ⟨byteLen s, s.drop n⟩ := bumpN_mk n _ s
  have hsum := byteLen_take_drop n s
  constructor
  · rw [hb]
    simp only [CursorB.consumedLen]
    omega
  · intro hascii
    rw [hb]
    simp only [CursorB.consumedLen]
    have h1 : byteLen (s.drop n) = (s.drop n).length :=
      byteLen_ascii _ (fun c hc => hascii c (List.mem_of_mem_drop hc))
    have h2 : byteLen s = s.length := byteLen_ascii _ hascii
    rw [h1, h2, List.length_drop]
    omega

/-- C9 counterexample: on input "é" (a single two-byte character), one
bump consumes one character, yet `consumed_len` reports 2 — it counts
bytes, not characters. -/
theorem c9_counter :
    (bumpN 1 (CursorB.fromStr ['é'])).consumedLen = 2 ∧
    (bumpN 1 (CursorB.fromStr ['é'])).chars = [] ∧
    (['é'].length - (bumpN 1 (CursorB.fromStr ['é'])).chars.length) = 1 ∧
    (bumpN 1 (CursorB.fromStr ['é'])).consumedLen ≠
      ['é'].length - (bumpN 1 (CursorB.fromStr ['é'])).chars.length := by
  decide

theorem c9_w :
    (bumpN 2 (CursorB.fromStr ['a', 'b', 'c'])).consumedLen = byteLen (['a', 'b', 'c'].take 2) ∧
    (bumpN 2 (CursorB.fromStr ['a', 'b', 'c'])).consumedLen = min 2 (['a', 'b', 'c'].length) :=
  ⟨(consumedLen_eq_bytes ['a', 'b', 'c'] 2).1,
   (consumedLen_eq_bytes ['a', 'b', 'c'] 2).2 (by decide)⟩

theorem utf8Enc_cons (c : Char) (l : List Char) :
    utf8Enc (c :: l) = utf8Bytes c ++ utf8Enc l := by
  simp [utf8Enc]

theorem sliceBytesAt_spec (cs : List Char) :
    ∀ (n : Nat) (t : List Char), sliceBytesAt cs n = some t →
      byteLen t = n ∧ t = cs.take t.length ∧ utf8Enc t = (utf8Enc cs).take n := by
  induction cs with
  | nil =>
    intro n t h
    match n with
    | 0 =>
      simp [sliceBytesAt] at h
      subst h
      simp [byteLen, utf8Enc]
    | _ + 1 => simp [sliceBytesAt] at h
  | cons c rest ih =>
    intro n t h
    match n with
    | 0 =>
      simp [sliceBytesAt] at h
      subst h
      simp [byteLen, utf8Enc]
    | m + 1 =>
      simp only [sliceBytesAt] at h
      split at h
      · rename_i hsz
        rcases Option.map_eq_some'.mp h with ⟨t', ht', rfl⟩
        obtain ⟨h1, h2, h3⟩ := ih _ _ ht'
        refine ⟨?_, ?_, ?_⟩
        · simp only [byteLen, List.map_cons, List.sum_cons] at h1 ⊢
          omega
        · simp only [List.length_cons, List.take_succ_cons]
          exact congrArg _ h2
        · have hlen : (utf8Bytes c).length ≤ m + 1 := hsz
          rw [utf8Enc_cons, utf8Enc_cons, List.take_append_eq_append_take,
            List.take_of_length_le hlen, h3]
          rfl
      · exact absurd h (by simp)

theorem arbAuxB_panic (cur : List Char) :
    ∀ (l : List RuleB) (best : Option (Nat × RuleB × Token)),
      (∃ r ∈ l, r.tryM cur = none) → arbAuxB cur l best = none := by
  intro l
  induction l with
  | nil => rintro best ⟨r, hr, _⟩; exact absurd hr (by simp)
  | cons r0 rest ih =>
    rintro best ⟨r, hr, hp⟩
    rcases List.mem_cons.mp hr with rfl | hr'
    · simp [arbAuxB, hp]
    · simp only [arbAuxB]
      split
      · rfl
      · exact ih _ ⟨r, hr', hp⟩
      · split <;> [exact ih _ ⟨r, hr', hp⟩;
          (split <;> exact ih _ ⟨r, hr', hp⟩)]

theorem peekManyB_inside_char (c : Char) (cs : List Char) (h : charSize c = 3) :
    peekManyB (c :: cs) 2 = none := by
  have hb : byteLen (c :: cs) = 3 + byteLen cs := by
    simp [byteLen, h]
  have hslice : sliceBytesAt (c :: cs) 2 = none := by
    simp only [show (2 : Nat) = 1 + 1 from rfl, sliceBytesAt, h]
    norm_num
  simp only [peekManyB, hb]
  rw [if_pos (by omega)]
  exact hslice

theorem blockTryMatchB_panic (c : Char) (cs : List Char) (h : charSize c = 3) :
    blockTryMatchB (c :: cs) = none := by
  simp [blockTryMatchB, peekManyB_inside_char c cs h]

/-- C10: `peek_many` measures and slices the remaining input in bytes —
when at least `n` bytes remain it returns exactly the first `n` bytes of
the UTF-8 encoding, and panics (`none`) when offset `n` falls inside a
multi-byte character; hence the driver, whose sweep runs
`BlockCommentRule::try_match`'s `peek_many(2)` at every position, panics
on any input starting with a three-byte character. -/
theorem c10_peek_many_bytes :
    (∀ (cs : List Char) (n : Nat) (t : List Char), n ≤ byteLen cs →
      peekManyB cs n = some t →
      byteLen t = n ∧ t = cs.take t.length ∧ utf8Enc t = (utf8Enc cs).take n) ∧
    (∀ (c : Char) (cs : List Char), charSize c = 3 → peekManyB (c :: cs) 2 = none) ∧
    (∀ (rules : List RuleB) (c : Char) (cs : List Char), blockB ∈ rules →
      charSize c = 3 → lexB rules (c :: cs) = none) := by
  refine ⟨?_, peekManyB_inside_char, ?_⟩
  · intro cs n t hn h
    rw [peekManyB, if_pos hn] at h
    exact sliceBytesAt_spec cs n t h
  · intro rules c cs hmem h3
    have hpanic : arbAuxB (c :: cs) rules none = none :=
      arbAuxB_panic _ _ _ ⟨blockB, hmem, blockTryMatchB_panic c cs h3⟩
    simp [lexB, lexFuelB, hpanic]

theorem c10_w :
    (byteLen ['a'] = 1 ∧ ['a'] = (['a', 'b'].take (['a'].length)) ∧
      utf8Enc ['a'] = (utf8Enc ['a', 'b']).take 1) ∧
    peekManyB ['€'] 2 = none ∧
    lexB [blockB] ['€'] = none :=
  ⟨c10_peek_many_bytes.1 ['a', 'b'] 1 ['a'] (by decide) (by decide),
   c10_peek_many_bytes.2.1 '€' [] (by decide),
   c10_peek_many_bytes.2.2 [blockB] '€' [] (by simp) (by decide)⟩
theorem csA_nil (c l : Nat) (b : List Char) :
    consumeStringAux [] c l b = .er c msgEofString l none := consumeStringAux.eq_1 c l b

theorem csA_null (r : List Char) (c l : Nat) (b : List Char) :
    consumeStringAux ('\x00' :: r) c l b =
      .er c msgNullString l (some (lengthIncluding ['\n', '"'] ('\x00' :: r))) := by
  cases r <;> simp +decide only [consumeStringAux, if_true, if_false]

theorem csA_nl (r : List Char) (c l : Nat) (b : List Char) :
    consumeStringAux ('\n' :: r) c l b = .er (c + 1) msgUntermString (l + 1) none := by
  cases r <;> simp +decide only [consumeStringAux, if_true, if_false]

theorem csA_quote (r : List Char) (c l : Nat) (b : List Char) :
    consumeStringAux ('"' :: r) c l b = .ok (c + 1) b l := by
  cases r <;> simp +decide only [consumeStringAux, if_true, if_false]

theorem csA_bsNil (c l : Nat) (b : List Char) :
    consumeStringAux ['\\'] c l b = .er (c + 1) msgEofString l none := by
  simp +decide only [consumeStringAux, if_true, if_false]

theorem csA_bsB (r : List Char) (c l : Nat) (b : List Char) :
    consumeStringAux ('\\' :: 'b' :: r) c l b = consumeStringAux r (c + 2) l (b ++ ['\x08']) := by
  simp +decide only [consumeStringAux, if_true, if_false]

theorem csA_bsT (r : List Char) (c l : Nat) (b : List Char) :
    consumeStringAux ('\\' :: 't' :: r) c l b = consumeStringAux r (c + 2) l (b ++ ['\t']) := by
  simp +decide only [consumeStringAux, if_true, if_false]

theorem csA_bsN (r : List Char) (c l : Nat) (b : List Char) :
    consumeStringAux ('\\' :: 'n' :: r) c l b = consumeStringAux r (c + 2) l (b ++ ['\n']) := by
  simp +decide only [consumeStringAux, if_true, if_false]

theorem csA_bsF (r : List Char) (c l : Nat) (b : List Char) :
    consumeStringAux ('\\' :: 'f' :: r) c l b = consumeStringAux r (c + 2) l (b ++ ['\x0C']) := by
  simp +decide only [consumeStringAux, if_true, if_false]

theorem csA_bsNl (r : List Char) (c l : Nat) (b : List Char) :
    consumeStringAux ('\\' :: '\n' :: r) c l b =
      consumeStringAux r (c + 2) (l + 1) (b ++ ['\n']) := by
  simp +decide only [consumeStringAux, if_true, if_false]

theorem csA_bsNull (r : List Char) (c l : Nat) (b : List Char) :
    consumeStringAux ('\\' :: '\x00' :: r) c l b =
      .er (c + 2) msgEscNullString l (some (lengthIncluding ['\n', '"'] r)) := by
  simp +decide only [consumeStringAux, if_true, if_false]

theorem csA_bsOther (d : Char) (r : List Char) (c l : Nat) (b : List Char)
    (h0 : ¬d = 'b') (h1 : ¬d = 't') (h2 : ¬d = 'n') (h3 : ¬d = 'f') (h4 : ¬d = '\n')
    (h5 : ¬d = '\x00') :
    consumeStringAux ('\\' :: d :: r) c l b = consumeStringAux r (c + 2) l (b ++ [d]) := by
  simp +decide only [consumeStringAux, if_true, if_false, h0, h1, h2, h3, h4, h5]

theorem csA_other (x : Char) (r : List Char) (c l : Nat) (b : List Char)
    (h0 : ¬x = '\x00') (h1 : ¬x = '\n') (h2 : ¬x = '\\') (h3 : ¬x = '"') :
    consumeStringAux (x :: r) c l b = consumeStringAux r (c + 1) l (b ++ [x]) := by
  cases r <;>
    simp +decide only [consumeStringAux, if_true, if_false, h0, h1, h2, h3]
theorem countNl_nil : countNl [] = 0 := rfl

theorem countNl_cons (c : Char) (l : List Char) :
    countNl (c :: l) = countNl l + (if c = '\n' then 1 else 0) := by
  simp [countNl, List.count_cons]

theorem csAux_basic (input : List Char) (consumed lines : Nat) (buf : List Char) :
    ∃ k, (consumeStringAux input consumed lines buf).consumed = consumed + k ∧
      k ≤ input.length ∧
      (consumeStringAux input consumed lines buf).lines = lines + countNl (input.take k) := by
  induction input, consumed, lines, buf using consumeStringAux.induct with
  | case1 c l b =>
    exact ⟨0, by simp [csA_nil, StrRes.consumed, StrRes.lines, countNl]⟩
  | case2 r c l b =>
    exact ⟨0, by simp [csA_null, StrRes.consumed, StrRes.lines, countNl]⟩
  | case3 r c l b h =>
    refine ⟨1, ?_⟩
    simp +decide [csA_nl, StrRes.consumed, StrRes.lines, countNl_cons, countNl_nil]
  | case4 c l b h1 h2 ih =>
    refine ⟨1, ?_⟩
    simp +decide [csA_bsNil, StrRes.consumed, StrRes.lines, countNl_cons, countNl_nil]
  | case5 c l b r2 h1 h2 ih =>
    obtain ⟨k, hk1, hk2, hk3⟩ := ih
    refine ⟨k + 2, ?_, ?_, ?_⟩
    · rw [csA_bsB, hk1]; omega
    · simp; omega
    · rw [csA_bsB, hk3]
      simp +decide [List.take_succ_cons, countNl_cons]
  | case6 c l b r2 h1 h2 h3 ih =>
    obtain ⟨k, hk1, hk2, hk3⟩ := ih
    refine ⟨k + 2, ?_, ?_, ?_⟩
    · rw [csA_bsT, hk1]; omega
    · simp; omega
    · rw [csA_bsT, hk3]
      simp +decide [List.take_succ_cons, countNl_cons]
  | case7 c l b r2 h1 h2 h3 h4 ih =>
    obtain ⟨k, hk1, hk2, hk3⟩ := ih
    refine ⟨k + 2, ?_, ?_, ?_⟩
    · rw [csA_bsN, hk1]; omega
    · simp; omega
    · rw [csA_bsN, hk3]
      simp +decide [List.take_succ_cons, countNl_cons]
  | case8 c l b r2 h1 h2 h3 h4 h5 ih =>
    obtain ⟨k, hk1, hk2, hk3⟩ := ih
    refine ⟨k + 2, ?_, ?_, ?_⟩
    · rw [csA_bsF, hk1]; omega
    · simp; omega
    · rw [csA_bsF, hk3]
      simp +decide [List.take_succ_cons, countNl_cons]
  | case9 c l b r2 h1 h2 h3 h4 h5 h6 ih =>
    obtain ⟨k, hk1, hk2, hk3⟩ := ih
    refine ⟨k + 2, ?_, ?_, ?_⟩
    · rw [csA_bsNl, hk1]; omega
    · simp; omega
    · rw [csA_bsNl, hk3]
      simp +decide [List.take_succ_cons, countNl_cons]
      omega
  | case10 c l b r2 h1 h2 h3 h4 h5 h6 h7 =>
    refine ⟨2, ?_, ?_, ?_⟩
    · rw [csA_bsNull]; rfl
    · simp
    · rw [csA_bsNull]
      simp +decide [List.take_succ_cons, countNl_cons, countNl_nil, StrRes.lines]
  | case11 c l b d r2 h0 h1 h2 h3 h4 h5 hb1 hb2 ih =>
    obtain ⟨k, hk1, hk2, hk3⟩ := ih
    refine ⟨k + 2, ?_, ?_, ?_⟩
    · rw [csA_bsOther d r2 c l b h0 h1 h2 h3 h4 h5, hk1]; omega
    · simp; omega
    · rw [csA_bsOther d r2 c l b h0 h1 h2 h3 h4 h5, hk3]
      simp +decide [List.take_succ_cons, countNl_cons, h4]
  | case12 r c l b h1 h2 h3 =>
    refine ⟨1, ?_⟩
    simp +decide [csA_quote, StrRes.consumed, StrRes.lines, countNl_cons, countNl_nil]
  | case13 x r c l b h0 h1 h2 h3 ih =>
    obtain ⟨k, hk1, hk2, hk3⟩ := ih
    refine ⟨k + 1, ?_, ?_, ?_⟩
    · rw [csA_other x r c l b h0 h1 h2 h3, hk1]; omega
    · simp; omega
    · rw [csA_other x r c l b h0 h1 h2 h3, hk3]
      simp [List.take_succ_cons, countNl_cons, h1]
theorem csAux_nullCase (input : List Char) (consumed lines : Nat) (buf : List Char) :
    ∀ c' l' r', consumeStringAux input consumed lines buf = .er c' msgNullString l' r' →
      r' = some (lengthIncluding ['\n', '"'] (input.drop (c' - consumed))) ∧
      (input.drop (c' - consumed)).head? = some '\x00' ∧ consumed ≤ c' := by
  induction input, consumed, lines, buf using consumeStringAux.induct with
  | case1 c l b =>
    intro c' l' r' h
    rw [csA_nil] at h
    exact absurd h (by simp +decide [msgEofString, msgNullString])
  | case2 r c l b =>
    intro c' l' r' h
    rw [csA_null] at h
    obtain ⟨hc, hm, hl, hr⟩ := by simpa only [StrRes.er.injEq] using h
    subst hc
    simp [Nat.sub_self, ← hr]
  | case3 r c l b h =>
    intro c' l' r' hh
    rw [csA_nl] at hh
    exact absurd hh (by simp +decide [msgUntermString, msgNullString])
  | case4 c l b h1 h2 ih =>
    intro c' l' r' h
    rw [csA_bsNil] at h
    exact absurd h (by simp +decide [msgEofString, msgNullString])
  | case5 c l b r2 h1 h2 ih =>
    intro c' l' r' h
    rw [csA_bsB] at h
    obtain ⟨hr, hh, hle⟩ := ih c' l' r' h
    have he : c' - c = (c' - (c + 2)) + 2 := by omega
    rw [he, List.drop_succ_cons, List.drop_succ_cons]
    exact ⟨hr, hh, by omega⟩
  | case6 c l b r2 h1 h2 h3 ih =>
    intro c' l' r' h
    rw [csA_bsT] at h
    obtain ⟨hr, hh, hle⟩ := ih c' l' r' h
    have he : c' - c = (c' - (c + 2)) + 2 := by omega
    rw [he, List.drop_succ_cons, List.drop_succ_cons]
    exact ⟨hr, hh, by omega⟩
  | case7 c l b r2 h1 h2 h3 h4 ih =>
    intro c' l' r' h
    rw [csA_bsN] at h
    obtain ⟨hr, hh, hle⟩ := ih c' l' r' h
    have he : c' - c = (c' - (c + 2)) + 2 := by omega
    rw [he, List.drop_succ_cons, List.drop_succ_cons]
    exact ⟨hr, hh, by omega⟩
  | case8 c l b r2 h1 h2 h3 h4 h5 ih =>
    intro c' l' r' h
    rw [csA_bsF] at h
    obtain ⟨hr, hh, hle⟩ := ih c' l' r' h
    have he : c' - c = (c' - (c + 2)) + 2 := by omega
    rw [he, List.drop_succ_cons, List.drop_succ_cons]
    exact ⟨hr, hh, by omega⟩
  | case9 c l b r2 h1 h2 h3 h4 h5 h6 ih =>
    intro c' l' r' h
    rw [csA_bsNl] at h
    obtain ⟨hr, hh, hle⟩ := ih c' l' r' h
    have he : c' - c = (c' - (c + 2)) + 2 := by omega
    rw [he, List.drop_succ_cons, List.drop_succ_cons]
    exact ⟨hr, hh, by omega⟩
  | case10 c l b r2 h1 h2 h3 h4 h5 h6 h7 =>
    intro c' l' r' h
    rw [csA_bsNull] at h
    exact absurd h (by simp +decide [msgEscNullString, msgNullString])
  | case11 c l b d r2 h0 h1 h2 h3 h4 h5 hb1 hb2 ih =>
    intro c' l' r' h
    rw [csA_bsOther d r2 c l b h0 h1 h2 h3 h4 h5] at h
    obtain ⟨hr, hh, hle⟩ := ih c' l' r' h
    have he : c' - c = (c' - (c + 2)) + 2 := by omega
    rw [he, List.drop_succ_cons, List.drop_succ_cons]
    exact ⟨hr, hh, by omega⟩
  | case12 r c l b h1 h2 h3 =>
    intro c' l' r' h
    rw [csA_quote] at h
    exact absurd h (by simp)
  | case13 x r c l b h0 h1 h2 h3 ih =>
    intro c' l' r' h
    rw [csA_other x r c l b h0 h1 h2 h3] at h
    obtain ⟨hr, hh, hle⟩ := ih c' l' r' h
    have he : c' - c = (c' - (c + 1)) + 1 := by omega
    rw [he, List.drop_succ_cons]
    exact ⟨hr, hh, by omega⟩
theorem lengthIncluding_pos (dl : List Char) (cs : List Char) (h : cs ≠ []) :
    1 ≤ lengthIncluding dl cs := by
  rw [lengthIncluding]
  cases hf : cs.findIdx? (fun c => dl.contains c) with
  | some p => simp
  | none =>
    cases cs with
    | nil => exact absurd rfl h
    | cons a l => simp

theorem stringTryMatch_noQuote (c0 : Char) (rest : List Char) (h : ¬c0 = '"') :
    stringTryMatch (c0 :: rest) = none := by
  rw [stringTryMatch.eq_def]
  split
  · rename_i heq
    injection heq with h1 h2
    exact absurd h1 h
  · rfl

/-- C4: when the string scan hits a raw NUL, the error token carries
"String contains null character.", its length is the distance consumed
before the NUL (the dropped prefix of that length ends right at the
NUL), the recorded recovery distance is the count of characters up to
and including the next newline or quote (or to end of input), `accept`
slices past `token.length` plus that distance, and the recovery
distance is positive, so the next scan attempt starts past the NUL. -/
theorem c4_null_recovery (s : List Char) (tok : Token)
    (hm : stringTryMatch s = some tok) (hk : tok.kind = .error msgNullString) :
    ∃ rec, (stringScanInfo s).2 = some rec ∧
      rec = lengthIncluding ['\n', '"'] (s.drop tok.length) ∧
      (s.drop tok.length).head? = some '\x00' ∧
      (∀ st, acceptR .stringR tok st s =
        (s.drop (tok.length + rec), { st with line := st.line + (stringScanInfo s).1 })) ∧
      1 ≤ rec := by
  match s with
  | [] => exact absurd hm (by simp [stringTryMatch])
  | c0 :: rest =>
    by_cases hq : c0 = '"'
    · subst hq
      rcases hres : consumeStringAux rest 1 0 [] with ⟨cc, v, ll⟩ | ⟨cc, m, ll, rr⟩
      · rw [stringTryMatch, hres] at hm
        obtain rfl := Option.some.injEq _ _ ▸ hm
        simp at hk
      · rw [stringTryMatch, hres] at hm
        have htok : tok = ⟨.error m, cc⟩ := by simpa using hm.symm
        subst htok
        simp only at hk
        have hmsg : m = msgNullString := by
          simpa [TokenKind.error.injEq] using hk
        subst hmsg
        obtain ⟨hr, hhd, hle⟩ := csAux_nullCase rest 1 0 [] cc ll rr hres
        have hdrop : ('"' :: rest).drop cc = rest.drop (cc - 1) := by
          cases cc with
          | zero => exact absurd hle (by omega)
          | succ mm => simp [List.drop_succ_cons]
        have hinfo : stringScanInfo ('"' :: rest) = (ll, rr) := by
          simp [stringScanInfo, hres]
        have hrecpos : 1 ≤ lengthIncluding ['\n', '"'] (rest.drop (cc - 1)) :=
          lengthIncluding_pos _ _ (by
            intro hnil
            rw [hnil] at hhd
            exact absurd hhd (by simp))
        refine ⟨lengthIncluding ['\n', '"'] (rest.drop (cc - 1)), ?_, ?_, ?_, ?_, hrecpos⟩
        · rw [hinfo, hr]
        · rw [hdrop]
        · rw [hdrop]; exact hhd
        · intro st
          simp only [acceptR, hinfo, hr]
          rfl
    · exact absurd hm (by simp [stringTryMatch_noQuote c0 rest hq])

theorem c4_w :
    ∃ rec, (stringScanInfo ("\"a\x00b\"".toList)).2 = some rec ∧
      rec = lengthIncluding ['\n', '"'] (("\"a\x00b\"".toList).drop 2) ∧
      (("\"a\x00b\"".toList).drop 2).head? = some '\x00' ∧
      (∀ st, acceptR .stringR ⟨.error msgNullString, 2⟩ st ("\"a\x00b\"".toList) =
        (("\"a\x00b\"".toList).drop (2 + rec),
          { st with line := st.line + (stringScanInfo ("\"a\x00b\"".toList)).1 })) ∧
      1 ≤ rec :=
  c4_null_recovery ("\"a\x00b\"".toList) ⟨.error msgNullString, 2⟩ (by decide) rfl
/-- Printable ASCII: `c.is_ascii() && !c.is_control()` — for ASCII code
points, not-control means in `0x20 ..= 0x7E`. -/
def isPrintableAscii (c : Char) : Bool := 0x20 ≤ c.toNat && c.toNat ≤ 0x7E

/-- The `{:03o}` octal rendering: zero-padded to at least three
digits. -/
def octal3 (n : Nat) : List Char :=
  let d := Nat.toDigits 8 n
  List.replicate (3 - d.length) '0' ++ d

/-- One character of `common::escaped_string`, in the source's match
order. -/
def escChar (c : Char) : List Char :=
  if c = '\\' then ['\\', '\\']
  else if c = '"' then ['\\', '"']
  else if c = '\n' then ['\\', 'n']
  else if c = '\t' then ['\\', 't']
  else if c = '\x08' then ['\\', 'b']
  else if c = '\x0C' then ['\\', 'f']
  else if isPrintableAscii c then [c]
  else '\\' :: octal3 c.toNat

/-- `common::escaped_string`. -/
def escapedString (s : List Char) : List Char := (s.map escChar).flatten

/-- Characters whose escaped rendering the string scanner can undo: the
six backslash-escaped specials and printable ASCII.  Characters sent to
the octal path have no inverse in the scanner. -/
def safeChar (c : Char) : Bool :=
  isPrintableAscii c || c = '\\' || c = '"' || c = '\n' || c = '\t' ||
    c = '\x08' || c = '\x0C'

theorem stringTryMatch_quote (rest : List Char) :
    stringTryMatch ('"' :: rest) =
      (match consumeStringAux rest 1 0 [] with
        | .ok c v _ => some ⟨.string v, c⟩
        | .er c m _ _ => some ⟨.error m, c⟩) := rfl

theorem csAux_congrArgs (tail : List Char) (a a' lines : Nat) (b b' : List Char)
    (ha : a = a') (hb : b = b') :
    consumeStringAux tail a lines b = consumeStringAux tail a' lines b' := by
  rw [ha, hb]

theorem csAux_escaped (v : List Char) (hsafe : ∀ c ∈ v, safeChar c = true) :
    ∀ (tail : List Char) (consumed lines : Nat) (buf : List Char),
      consumeStringAux (escapedString v ++ tail) consumed lines buf =
        consumeStringAux tail (consumed + (escapedString v).length) lines (buf ++ v) := by
  induction v with
  | nil => intro tail consumed lines buf; simp [escapedString]
  | cons c v' ih =>
    intro tail consumed lines buf
    have hsafe' : ∀ x ∈ v', safeChar x = true := fun x hx => hsafe x (by simp [hx])
    have hc : safeChar c = true := hsafe c (by simp)
    have hesc : escapedString (c :: v') = escChar c ++ escapedString v' := by
      simp [escapedString]
    rw [hesc]
    by_cases h1 : c = '\\'
    · subst h1
      rw [show escChar '\\' = ['\\', '\\'] by decide]
      simp only [List.cons_append, List.nil_append]
      rw [csA_bsOther '\\' _ _ _ _ (by decide) (by decide) (by decide) (by decide) (by decide)
        (by decide), ih hsafe']
      refine csAux_congrArgs _ _ _ _ _ _ ?_ ?_
      · simp; omega
      · simp
    · by_cases h2 : c = '"'
      · subst h2
        rw [show escChar '"' = ['\\', '"'] by decide]
        simp only [List.cons_append, List.nil_append]
        rw [csA_bsOther '"' _ _ _ _ (by decide) (by decide) (by decide) (by decide) (by decide)
          (by decide), ih hsafe']
        refine csAux_congrArgs _ _ _ _ _ _ ?_ ?_
        · simp; omega
        · simp
      · by_cases h3 : c = '\n'
        · subst h3
          rw [show escChar '\n' = ['\\', 'n'] by decide]
          simp only [List.cons_append, List.nil_append]
          rw [csA_bsN, ih hsafe']
          refine csAux_congrArgs _ _ _ _ _ _ ?_ ?_
          · simp; omega
          · simp
        · by_cases h4 : c = '\t'
          · subst h4
            rw [show escChar '\t' = ['\\', 't'] by decide]
            simp only [List.cons_append, List.nil_append]
            rw [csA_bsT, ih hsafe']
            refine csAux_congrArgs _ _ _ _ _ _ ?_ ?_
            · simp; omega
            · simp
          · by_cases h5 : c = '\x08'
            · subst h5
              rw [show escChar '\x08' = ['\\', 'b'] by decide]
              simp only [List.cons_append, List.nil_append]
              rw [csA_bsB, ih hsafe']
              refine csAux_congrArgs _ _ _ _ _ _ ?_ ?_
              · simp; omega
              · simp
            · by_cases h6 : c = '\x0C'
              · subst h6
                rw [show escChar '\x0C' = ['\\', 'f'] by decide]
                simp only [List.cons_append, List.nil_append]
                rw [csA_bsF, ih hsafe']
                refine csAux_congrArgs _ _ _ _ _ _ ?_ ?_
                · simp; omega
                · simp
              · have hprint : isPrintableAscii c = true := by
                  simp [safeChar, h1, h2, h3, h4, h5, h6] at hc
                  exact hc
                have hesc1 : escChar c = [c] := by
                  simp [escChar, h1, h2, h3, h4, h5, h6, hprint]
                have hp : 0x20 ≤ c.toNat := by
                  simp [isPrintableAscii] at hprint
                  exact hprint.1
                have h0 : ¬c = '\x00' := by
                  intro hcc; subst hcc; exact absurd hp (by decide)
                have hnl : ¬c = '\n' := h3
                rw [hesc1]
                simp only [List.cons_append, List.nil_append]
                rw [csA_other c _ _ _ _ h0 hnl h1 h2, ih hsafe']
                refine csAux_congrArgs _ _ _ _ _ _ ?_ ?_
                · simp; omega
                · simp


/-- Value pushed back by the scanner when it rescans `escChar c`: the
character itself on the six-specials / printable path; the literal octal
digits on the octal path — the scanner has no octal-unescape rule, so
after the backslash it pushes the first digit and the remaining digits
are consumed as ordinary characters. -/
def reEsc (c : Char) : List Char := if safeChar c then [c] else octal3 c.toNat

/-- The value obtained by rescanning the escaped rendering of `v`. -/
def rescanValue (v : List Char) : List Char := (v.map reEsc).flatten

theorem digitChar_mem (k : Nat) (hk : k < 8) :
    Nat.digitChar k ∈ (['0', '1', '2', '3', '4', '5', '6', '7'] : List Char) := by
  interval_cases k <;> decide

theorem toDigitsCore_mem (fuel : Nat) :
    ∀ (n : Nat) (ds : List Char),
      (∀ d ∈ ds, d ∈ (['0', '1', '2', '3', '4', '5', '6', '7'] : List Char)) →
      ∀ d ∈ Nat.toDigitsCore 8 fuel n ds,
        d ∈ (['0', '1', '2', '3', '4', '5', '6', '7'] : List Char) := by
  induction fuel with
  | zero => intro n ds hds d hd; rw [Nat.toDigitsCore] at hd; exact hds d hd
  | succ fuel ih =>
    intro n ds hds d hd
    rw [Nat.toDigitsCore] at hd
    have hmem : ∀ x ∈ (n % 8).digitChar :: ds,
        x ∈ (['0', '1', '2', '3', '4', '5', '6', '7'] : List Char) := by
      intro x hx
      rcases List.mem_cons.1 hx with h | h
      · subst h; exact digitChar_mem _ (Nat.mod_lt n (by decide))
      · exact hds x h
    by_cases hz : n / 8 = 0
    · rw [if_pos hz] at hd; exact hmem d hd
    · rw [if_neg hz] at hd; exact ih (n / 8) _ hmem d hd

theorem octal3_mem (n : Nat) (d : Char) (hd : d ∈ octal3 n) :
    d ∈ (['0', '1', '2', '3', '4', '5', '6', '7'] : List Char) := by
  simp only [octal3] at hd
  rcases List.mem_append.1 hd with h | h
  · rw [List.eq_of_mem_replicate h]; decide
  · exact toDigitsCore_mem (n + 1) n [] (by simp) d h

theorem octal3_len (n : Nat) : 3 ≤ (octal3 n).length := by
  simp only [octal3, List.length_append, List.length_replicate]
  omega

theorem oct_plain (c : Char)
    (h : c ∈ (['0', '1', '2', '3', '4', '5', '6', '7'] : List Char)) :
    ¬c = '\x00' ∧ ¬c = '\n' ∧ ¬c = '\\' ∧ ¬c = '"' ∧ ¬c = 'b' ∧ ¬c = 't' ∧
      ¬c = 'n' ∧ ¬c = 'f' := by
  fin_cases h <;> exact (by decide)

theorem csAux_plain (ds : List Char)
    (hds : ∀ d ∈ ds, d ∈ (['0', '1', '2', '3', '4', '5', '6', '7'] : List Char)) :
    ∀ (tail : List Char) (consumed lines : Nat) (buf : List Char),
      consumeStringAux (ds ++ tail) consumed lines buf =
        consumeStringAux tail (consumed + ds.length) lines (buf ++ ds) := by
  induction ds with
  | nil => intro tail c l b; simp
  | cons d ds' ih =>
    intro tail c l b
    obtain ⟨p0, p1, p2, p3, -⟩ := oct_plain d (hds d (by simp))
    simp only [List.cons_append]
    rw [csA_other d _ _ _ _ p0 p1 p2 p3, ih (fun x hx => hds x (by simp [hx]))]
    refine csAux_congrArgs _ _ _ _ _ _ ?_ ?_
    · simp; omega
    · simp

theorem reEsc_len_pos (c : Char) : 1 ≤ (reEsc c).length := by
  by_cases hc : safeChar c = true
  · simp [reEsc, hc]
  · have := octal3_len c.toNat
    simp only [reEsc, if_neg hc]
    omega

theorem csAux_render (v : List Char) :
    ∀ (tail : List Char) (consumed lines : Nat) (buf : List Char),
      consumeStringAux (escapedString v ++ tail) consumed lines buf =
        consumeStringAux tail (consumed + (escapedString v).length) lines
          (buf ++ rescanValue v) := by
  induction v with
  | nil => intro tail c l b; simp [escapedString, rescanValue]
  | cons c v' ih =>
    intro tail consumed lines buf
    have hesc : escapedString (c :: v') = escChar c ++ escapedString v' := by
      simp [escapedString]
    have hrv : rescanValue (c :: v') = reEsc c ++ rescanValue v' := by
      simp [rescanValue]
    rw [hesc, hrv]
    by_cases h1 : c = '\\'
    · subst h1
      rw [show escChar '\\' = ['\\', '\\'] from by decide,
        show reEsc '\\' = ['\\'] from by decide]
      simp only [List.cons_append, List.nil_append]
      rw [csA_bsOther '\\' _ _ _ _ (by decide) (by decide) (by decide) (by decide)
        (by decide) (by decide), ih]
      refine csAux_congrArgs _ _ _ _ _ _ ?_ ?_
      · simp; omega
      · simp
    · by_cases h2 : c = '"'
      · subst h2
        rw [show escChar '"' = ['\\', '"'] from by decide,
          show reEsc '"' = ['"'] from by decide]
        simp only [List.cons_append, List.nil_append]
        rw [csA_bsOther '"' _ _ _ _ (by decide) (by decide) (by decide) (by decide)
          (by decide) (by decide), ih]
        refine csAux_congrArgs _ _ _ _ _ _ ?_ ?_
        · simp; omega
        · simp
      · by_cases h3 : c = '\n'
        · subst h3
          rw [show escChar '\n' = ['\\', 'n'] from by decide,
            show reEsc '\n' = ['\n'] from by decide]
          simp only [List.cons_append, List.nil_append]
          rw [csA_bsN, ih]
          refine csAux_congrArgs _ _ _ _ _ _ ?_ ?_
          · simp; omega
          · simp
        · by_cases h4 : c = '\t'
          · subst h4
            rw [show escChar '\t' = ['\\', 't'] from by decide,
              show reEsc '\t' = ['\t'] from by decide]
            simp only [List.cons_append, List.nil_append]
            rw [csA_bsT, ih]
            refine csAux_congrArgs _ _ _ _ _ _ ?_ ?_
            · simp; omega
            · simp
          · by_cases h5 : c = '\x08'
            · subst h5
              rw [show escChar '\x08' = ['\\', 'b'] from by decide,
                show reEsc '\x08' = ['\x08'] from by decide]
              simp only [List.cons_append, List.nil_append]
              rw [csA_bsB, ih]
              refine csAux_congrArgs _ _ _ _ _ _ ?_ ?_
              · simp; omega
              · simp
            · by_cases h6 : c = '\x0C'
              · subst h6
                rw [show escChar '\x0C' = ['\\', 'f'] from by decide,
                  show reEsc '\x0C' = ['\x0C'] from by decide]
                simp only [List.cons_append, List.nil_append]
                rw [csA_bsF, ih]
                refine csAux_congrArgs _ _ _ _ _ _ ?_ ?_
                · simp; omega
                · simp
              · by_cases hp : isPrintableAscii c = true
                · have hsafe : safeChar c = true := by simp [safeChar, hp]
                  have hesc1 : escChar c = [c] := by
                    simp [escChar, h1, h2, h3, h4, h5, h6, hp]
                  have hre : reEsc c = [c] := by simp [reEsc, hsafe]
                  have hcn : 0x20 ≤ c.toNat := by
                    simp [isPrintableAscii] at hp
                    exact hp.1
                  have h0 : ¬c = '\x00' := by
                    intro hcc; subst hcc; exact absurd hcn (by decide)
                  rw [hesc1, hre]
                  simp only [List.cons_append, List.nil_append]
                  rw [csA_other c _ _ _ _ h0 h3 h1 h2, ih]
                  refine csAux_congrArgs _ _ _ _ _ _ ?_ ?_
                  · simp; omega
                  · simp
                · have hsafe : ¬safeChar c = true := by
                    simp [safeChar, h1, h2, h3, h4, h5, h6, hp]
                  have hesc1 : escChar c = '\\' :: octal3 c.toNat := by
                    simp [escChar, h1, h2, h3, h4, h5, h6, hp]
                  have hre : reEsc c = octal3 c.toNat := by
                    simp only [reEsc, if_neg hsafe]
                  obtain ⟨d0, drest, hoc⟩ :
                      ∃ d0 drest, octal3 c.toNat = d0 :: drest := by
                    cases hoc : octal3 c.toNat with
                    | nil =>
                      have := octal3_len c.toNat
                      rw [hoc] at this
                      exact absurd this (by decide)
                    | cons a b => exact ⟨a, b, rfl⟩
                  rw [hesc1, hre, hoc]
                  simp only [List.cons_append]
                  obtain ⟨p0, p1, p2, p3, p4, p5, p6, p7⟩ :=
                    oct_plain d0 (octal3_mem c.toNat d0 (by rw [hoc]; simp))
                  rw [csA_bsOther d0 _ _ _ _ p4 p5 p6 p7 p1 p0]
                  have hdrest : ∀ d ∈ drest,
                      d ∈ (['0', '1', '2', '3', '4', '5', '6', '7'] : List Char) :=
                    fun d hd => octal3_mem c.toNat d (by rw [hoc]; simp [hd])
                  rw [List.append_assoc, csAux_plain drest hdrest, ih]
                  refine csAux_congrArgs _ _ _ _ _ _ ?_ ?_
                  · simp; omega
                  · simp

theorem rescanValue_safe (v : List Char) (h : ∀ c ∈ v, safeChar c = true) :
    rescanValue v = v := by
  induction v with
  | nil => rfl
  | cons c v' ih =>
    have hc : safeChar c = true := h c (by simp)
    have ih' := ih (fun x hx => h x (by simp [hx]))
    simp only [rescanValue, List.map_cons, List.flatten_cons] at ih' ⊢
    rw [show reEsc c = [c] from by simp [reEsc, hc], ih']
    simp

theorem rescanValue_len (v : List Char) : v.length ≤ (rescanValue v).length := by
  induction v with
  | nil => simp [rescanValue]
  | cons c v' ih =>
    have h1 := reEsc_len_pos c
    simp only [rescanValue, List.map_cons, List.flatten_cons, List.length_append,
      List.length_cons] at ih ⊢
    omega

theorem rescanValue_unsafe (v : List Char) (c : Char) (hc : c ∈ v)
    (hun : ¬safeChar c = true) : v.length + 2 ≤ (rescanValue v).length := by
  induction v with
  | nil => simp at hc
  | cons a v' ih =>
    simp only [rescanValue, List.map_cons, List.flatten_cons, List.length_append,
      List.length_cons]
    rcases List.mem_cons.1 hc with h | h
    · subst h
      have h3 : 3 ≤ (reEsc c).length := by
        have := octal3_len c.toNat
        simp only [reEsc, if_neg hun]
        omega
      have hlen := rescanValue_len v'
      simp only [rescanValue] at hlen
      omega
    · have hih := ih h
      have h1 := reEsc_len_pos a
      simp only [rescanValue] at hih
      omega

/-- C7 counterexample: the value consisting of the single carriage
return — producible by a successful string match — renders as the octal
escape `\015`, and re-scanning that rendering yields the three-character
value "015", not the original. -/
theorem c7_counter :
    stringTryMatch ['"', '\x0D', '"'] = some ⟨.string ['\x0D'], 3⟩ ∧
    escapedString ['\x0D'] = ['\\', '0', '1', '5'] ∧
    stringTryMatch ('"' :: (escapedString ['\x0D'] ++ ['"'])) =
      some ⟨.string ['0', '1', '5'], 6⟩ ∧
    (['0', '1', '5'] : List Char) ≠ ['\x0D'] := by
  decide

/-- C7 amended: re-scanning the quoted escaped rendering of any value
always succeeds, consuming the whole rendering, and produces exactly
`rescanValue v`; the round trip is the identity (`rescanValue v = v`)
precisely when every character of `v` is printable ASCII or one of the
six backslash-escaped specials (quote, backslash, newline, tab,
backspace, form feed).  A value with any character on the octal path
fails to round-trip: its rendering re-scans to the literal octal digits,
as in the counterexample. -/
theorem c7_escape_roundtrip (v : List Char) :
    stringTryMatch ('"' :: (escapedString v ++ ['"'])) =
      some ⟨.string (rescanValue v), (escapedString v).length + 2⟩ ∧
    (rescanValue v = v ↔ ∀ c ∈ v, safeChar c = true) := by
  constructor
  · rw [stringTryMatch_quote, csAux_render v ['"'] 1 0 [], csA_quote]
    simp only [List.nil_append, Option.some.injEq, Token.mk.injEq,
      TokenKind.string.injEq]
    exact ⟨trivial, by omega⟩
  · constructor
    · intro heq
      by_contra hns
      push_neg at hns
      obtain ⟨c, hc, hcs⟩ := hns
      have hlen := rescanValue_unsafe v c hc hcs
      rw [heq] at hlen
      omega
    · exact rescanValue_safe v

theorem c7_w :
    stringTryMatch ('"' :: (escapedString ['h', '\n', '\x0D'] ++ ['"'])) =
      some ⟨.string (rescanValue ['h', '\n', '\x0D']),
        (escapedString ['h', '\n', '\x0D']).length + 2⟩ ∧
    (rescanValue ['h', '\n', '\x0D'] = ['h', '\n', '\x0D'] ↔
      ∀ c ∈ (['h', '\n', '\x0D'] : List Char), safeChar c = true) :=
  c7_escape_roundtrip ['h', '\n', '\x0D']

/-- C5: "(* (* x *) y *)" lexes as one block-comment token spanning the
whole 15 characters; "(* x *) *)" lexes as the block-comment token for
"(* x *)", the intervening space, and an unmatched-closer error token of
length 2; and on an opening `(*` the scan continues with the depth
counter at 1, so that it increments on each nested `(*`, decrements on
each `*)`, and succeeds exactly on reaching 0 (the branch structure of
`consumeCommentAux`). -/
theorem c5_comment_nesting :
    lex coolRules "(* (* x *) y *)".toList =
      some [(⟨.blockComment, 15⟩, 1)] ∧
    lex coolRules "(* x *) *)".toList =
      some [(⟨.blockComment, 7⟩, 1), (⟨.whitespace, 1⟩, 1), (⟨.error msgUnmatched, 2⟩, 1)] ∧
    (∀ rest : List Char, commentScan ('(' :: '*' :: rest) = consumeCommentAux rest 1 0 2) :=
  ⟨by decide, by decide, fun rest => rfl⟩
theorem kwSelect_spec (s : List Char) :
    ∀ (l : List (List Char × KeywordKind)) (n : Nat),
      (kwSelect s l n = none ↔ ∀ e ∈ l, ¬(kwMatchesB s e.1 = true ∧ n ≤ e.1.length)) ∧
      (∀ e, kwSelect s l n = some e → e ∈ l ∧ kwMatchesB s e.1 = true ∧ n ≤ e.1.length ∧
        ∀ e' ∈ l, kwMatchesB s e'.1 = true → n ≤ e'.1.length → e'.1.length ≤ e.1.length) := by
  intro l
  induction l with
  | nil =>
    intro n
    constructor
    · simp [kwSelect]
    · intro e h
      exact absurd h (by simp [kwSelect])
  | cons hd rest ih =>
    intro n
    obtain ⟨k, kd⟩ := hd
    by_cases hgt : n > k.length
    · have hrw : kwSelect s ((k, kd) :: rest) n = kwSelect s rest n := by
        rw [kwSelect, if_pos hgt]
      constructor
      · rw [hrw, (ih n).1]
        constructor
        · intro h e he
          rcases List.mem_cons.mp he with rfl | he'
          · rintro ⟨-, hn⟩; simp at hn; omega
          · exact h e he'
        · intro h e he
          exact h e (by simp [he])
      · intro e he
        rw [hrw] at he
        obtain ⟨h1, h2, h3, h4⟩ := (ih n).2 e he
        refine ⟨by simp [h1], h2, h3, ?_⟩
        intro e' he' hm' hn'
        rcases List.mem_cons.mp he' with rfl | he''
        · simp at hn'; omega
        · exact h4 e' he'' hm' hn'
    · have hle : n ≤ k.length := by omega
      by_cases hm : kwMatchesB s k = true
      · have hrw : kwSelect s ((k, kd) :: rest) n =
            (match kwSelect s rest k.length with
              | some e => some e
              | none => some (k, kd)) := by
          rw [kwSelect, if_neg hgt, if_pos hm]
        constructor
        · constructor
          · intro h
            exfalso
            rw [hrw] at h
            cases hsel : kwSelect s rest k.length <;> simp [hsel] at h
          · intro h
            exact absurd ⟨hm, hle⟩ (h (k, kd) (by simp))
        · intro e he
          rw [hrw] at he
          cases hsel : kwSelect s rest k.length with
          | some e0 =>
            rw [hsel] at he
            simp only [Option.some.injEq] at he
            subst he
            obtain ⟨h1, h2, h3, h4⟩ := (ih k.length).2 e0 hsel
            refine ⟨by simp [h1], h2, by omega, ?_⟩
            intro e' he' hm' hn'
            rcases List.mem_cons.mp he' with rfl | he''
            · simpa using h3
            · by_cases hcmp : k.length ≤ e'.1.length
              · exact h4 e' he'' hm' hcmp
              · omega
          | none =>
            rw [hsel] at he
            simp only [Option.some.injEq] at he
            subst he
            have hnone := ((ih k.length).1).mp hsel
            refine ⟨by simp, hm, hle, ?_⟩
            intro e' he' hm' hn'
            rcases List.mem_cons.mp he' with rfl | he''
            · simp
            · have hh := hnone e' he''
              simp only [not_and] at hh
              have hh2 := hh hm'
              simp only
              omega
      · have hrw : kwSelect s ((k, kd) :: rest) n = kwSelect s rest n := by
          rw [kwSelect, if_neg hgt, if_neg hm]
        constructor
        · rw [hrw, (ih n).1]
          constructor
          · intro h e he
            rcases List.mem_cons.mp he with rfl | he'
            · rintro ⟨hmm, -⟩; exact hm hmm
            · exact h e he'
          · intro h e he
            exact h e (by simp [he])
        · intro e he
          rw [hrw] at he
          obtain ⟨h1, h2, h3, h4⟩ := (ih n).2 e he
          refine ⟨by simp [h1], h2, h3, ?_⟩
          intro e' he' hm' hn'
          rcases List.mem_cons.mp he' with rfl | he''
          · exact absurd hm' hm
          · exact h4 e' he'' hm' hn'
/-- C6: `KeywordRule::try_match` always returns a token for a matching
key of maximal length among the case-insensitive prefix matches (and
returns one whenever any key matches); in particular, with "in" and
"inherits" registered (either registration order), input "inherits foo"
yields the Inherits keyword token of length 8. -/
theorem c6_keyword_longest :
    (∀ (mapping : List (List Char × KeywordKind)) (s : List Char) (tok : Token),
      kwTryMatch mapping s = some tok →
      ∃ e ∈ mapping, kwMatchesB s e.1 = true ∧ tok = ⟨.keyword e.2, e.1.length⟩ ∧
        ∀ e' ∈ mapping, kwMatchesB s e'.1 = true → e'.1.length ≤ e.1.length) ∧
    (∀ (mapping : List (List Char × KeywordKind)) (s : List Char),
      (∃ e ∈ mapping, kwMatchesB s e.1 = true) → (kwTryMatch mapping s).isSome) ∧
    kwTryMatch [("in".toList, .kIn), ("inherits".toList, .kInherits)] "inherits foo".toList =
      some ⟨.keyword .kInherits, 8⟩ ∧
    kwTryMatch [("inherits".toList, .kInherits), ("in".toList, .kIn)] "inherits foo".toList =
      some ⟨.keyword .kInherits, 8⟩ := by
  refine ⟨?_, ?_, by decide, by decide⟩
  · intro mapping s tok h
    rw [kwTryMatch] at h
    cases hsel : kwSelect s mapping 0 with
    | none => rw [hsel] at h; exact absurd h (by simp)
    | some e =>
      rw [hsel] at h
      simp only [Option.map_some', Option.some.injEq] at h
      obtain ⟨h1, h2, h3, h4⟩ := (kwSelect_spec s mapping 0).2 e hsel
      exact ⟨e, h1, h2, h.symm, fun e' he' hm' => h4 e' he' hm' (Nat.zero_le _)⟩
  · intro mapping s ⟨e, he, hm⟩
    rw [kwTryMatch]
    cases hsel : kwSelect s mapping 0 with
    | none =>
      have := ((kwSelect_spec s mapping 0).1.mp hsel) e he
      exact absurd ⟨hm, Nat.zero_le _⟩ this
    | some e0 => simp

theorem c6_w :
    (∃ e ∈ coolKeywords, kwMatchesB "class x".toList e.1 = true ∧
      (⟨.keyword .kClass, 5⟩ : Token) = ⟨.keyword e.2, e.1.length⟩ ∧
      ∀ e' ∈ coolKeywords, kwMatchesB "class x".toList e'.1 = true →
        e'.1.length ≤ e.1.length) ∧
    (kwTryMatch coolKeywords "class x".toList).isSome :=
  ⟨c6_keyword_longest.1 coolKeywords "class x".toList ⟨.keyword .kClass, 5⟩ (by decide),
   c6_keyword_longest.2.1 coolKeywords "class x".toList
     ⟨("class".toList, .kClass), by decide, by decide⟩⟩
theorem arbAux_acc_isSome (cur : List Char) :
    ∀ (l : List Rule) (b : Nat × Rule × Token), (arbAux cur l (some b)).isSome := by
  intro l
  induction l with
  | nil => intro b; simp [arbAux]
  | cons r0 rest ih =>
    intro b
    rw [arbAux]
    cases tryMatch r0 cur with
    | none => exact ih b
    | some t0 =>
      simp only
      split
      · exact ih _
      · exact ih b

theorem arbAux_none_iff (cur : List Char) :
    ∀ (l : List Rule), arbAux cur l none = none ↔ ∀ r ∈ l, tryMatch r cur = none := by
  intro l
  induction l with
  | nil => simp [arbAux]
  | cons r0 rest ih =>
    rw [arbAux]
    cases h0 : tryMatch r0 cur with
    | none =>
      simp only
      rw [ih]
      constructor
      · intro h r hr
        rcases List.mem_cons.mp hr with rfl | hr'
        · exact h0
        · exact h r hr'
      · intro h r hr
        exact h r (by simp [hr])
    | some t0 =>
      simp only
      constructor
      · intro h
        have := arbAux_acc_isSome cur rest (t0.length, r0, t0)
        rw [h] at this
        exact absurd this (by simp)
      · intro h
        exact absurd h0 (by rw [h r0 (by simp)]; simp)

theorem arbAux_acc_spec (cur : List Char) :
    ∀ (l : List Rule) (b : Nat × Rule × Token) (len : Nat) (r : Rule) (tok : Token),
      arbAux cur l (some b) = some (len, r, tok) →
      (((len, r, tok) = b ∧
          ∀ r' ∈ l, ∀ t', tryMatch r' cur = some t' → t'.length ≤ b.1) ∨
        (len = tok.length ∧ b.1 < len ∧
          ∃ pre post, l = pre ++ r :: post ∧ tryMatch r cur = some tok ∧
            (∀ r' ∈ pre, ∀ t', tryMatch r' cur = some t' → t'.length < len) ∧
            (∀ r' ∈ post, ∀ t', tryMatch r' cur = some t' → t'.length ≤ len))) := by
  intro l
  induction l with
  | nil =>
    intro b len r tok h
    rw [arbAux] at h
    exact Or.inl ⟨(Option.some.injEq _ _ ▸ h).symm, by simp⟩
  | cons r0 rest ih =>
    intro b len r tok h
    rw [arbAux] at h
    cases h0 : tryMatch r0 cur with
    | none =>
      rw [h0] at h
      rcases ih b len r tok h with ⟨heq, hall⟩ | ⟨h1, h2, pre, post, hdec, hm, hpre, hpost⟩
      · refine Or.inl ⟨heq, ?_⟩
        intro r' hr' t' ht'
        rcases List.mem_cons.mp hr' with rfl | hr''
        · rw [h0] at ht'; exact absurd ht' (by simp)
        · exact hall r' hr'' t' ht'
      · refine Or.inr ⟨h1, h2, r0 :: pre, post, by rw [hdec]; rfl, hm, ?_, hpost⟩
        intro r' hr' t' ht'
        rcases List.mem_cons.mp hr' with rfl | hr''
        · rw [h0] at ht'; exact absurd ht' (by simp)
        · exact hpre r' hr'' t' ht'
    | some t0 =>
      rw [h0] at h
      simp only at h
      by_cases hgt : t0.length > b.1
      · rw [if_pos hgt] at h
        rcases ih _ len r tok h with ⟨heq, hall⟩ | ⟨h1, h2, pre, post, hdec, hm, hpre, hpost⟩
        · simp only [Prod.mk.injEq] at heq
          obtain ⟨hlen, hr, htok⟩ := heq
          subst hr; subst htok
          refine Or.inr ⟨by omega, by omega, [], rest, by simp, h0, by simp, ?_⟩
          intro r' hr' t' ht'
          have := hall r' hr' t' ht'
          omega
        · refine Or.inr ⟨h1, by omega, r0 :: pre, post, by rw [hdec]; rfl, hm, ?_, hpost⟩
          intro r' hr' t' ht'
          rcases List.mem_cons.mp hr' with rfl | hr''
          · rw [h0] at ht'
            obtain rfl : t0 = t' := by simpa using ht'
            omega
          · exact hpre r' hr'' t' ht'
      · rw [if_neg hgt] at h
        rcases ih b len r tok h with ⟨heq, hall⟩ | ⟨h1, h2, pre, post, hdec, hm, hpre, hpost⟩
        · refine Or.inl ⟨heq, ?_⟩
          intro r' hr' t' ht'
          rcases List.mem_cons.mp hr' with rfl | hr''
          · rw [h0] at ht'
            obtain rfl : t0 = t' := by simpa using ht'
            omega
          · exact hall r' hr'' t' ht'
        · refine Or.inr ⟨h1, h2, r0 :: pre, post, by rw [hdec]; rfl, hm, ?_, hpost⟩
          intro r' hr' t' ht'
          rcases List.mem_cons.mp hr' with rfl | hr''
          · rw [h0] at ht'
            obtain rfl : t0 = t' := by simpa using ht'
            omega
          · exact hpre r' hr'' t' ht'
theorem arbAux_spec (cur : List Char) :
    ∀ (l : List Rule) (len : Nat) (r : Rule) (tok : Token),
      arbAux cur l none = some (len, r, tok) →
      len = tok.length ∧ ∃ pre post, l = pre ++ r :: post ∧ tryMatch r cur = some tok ∧
        (∀ r' ∈ pre, ∀ t', tryMatch r' cur = some t' → t'.length < tok.length) ∧
        (∀ r' ∈ post, ∀ t', tryMatch r' cur = some t' → t'.length ≤ tok.length) := by
  intro l
  induction l with
  | nil =>
    intro len r tok h
    exact absurd h (by simp [arbAux])
  | cons r0 rest ih =>
    intro len r tok h
    rw [arbAux] at h
    cases h0 : tryMatch r0 cur with
    | none =>
      rw [h0] at h
      obtain ⟨h1, pre, post, hdec, hm, hpre, hpost⟩ := ih len r tok h
      refine ⟨h1, r0 :: pre, post, by rw [hdec]; rfl, hm, ?_, hpost⟩
      intro r' hr' t' ht'
      rcases List.mem_cons.mp hr' with rfl | hr''
      · rw [h0] at ht'; exact absurd ht' (by simp)
      · exact hpre r' hr'' t' ht'
    | some t0 =>
      rw [h0] at h
      simp only at h
      rcases arbAux_acc_spec cur rest (t0.length, r0, t0) len r tok h with
        ⟨heq, hall⟩ | ⟨h1, h2, pre, post, hdec, hm, hpre, hpost⟩
      · simp only [Prod.mk.injEq] at heq
        obtain ⟨hlen, hr, htok⟩ := heq
        subst hr; subst htok
        refine ⟨by omega, [], rest, by simp, h0, by simp, ?_⟩
        intro r' hr' t' ht'
        have := hall r' hr' t' ht'
        omega
      · refine ⟨h1, r0 :: pre, post, by rw [hdec]; rfl, hm, ?_, ?_⟩
        · intro r' hr' t' ht'
          rcases List.mem_cons.mp hr' with rfl | hr''
          · rw [h0] at ht'
            obtain rfl : t0 = t' := by simpa using ht'
            omega
          · have := hpre r' hr'' t' ht'
            omega
        · intro r' hr' t' ht'
          have := hpost r' hr' t' ht'
          omega

/-- C1: whenever at least two registered rules match the current input,
the arbitration of `Lexer::lex` selects a token of the maximal match
length, every rule registered before the winner matched strictly
shorter (so equal-length ties go to the earliest-registered rule), and
the loop iteration emits exactly that token. -/
theorem c1_maximal_munch (rules : List Rule) (cur : List Char) (hne : cur ≠ [])
    (i j : Nat) (hi : i < rules.length) (hj : j < rules.length) (_hij : i ≠ j)
    (t1 t2 : Token)
    (h1 : tryMatch (rules.get ⟨i, hi⟩) cur = some t1)
    (h2 : tryMatch (rules.get ⟨j, hj⟩) cur = some t2) :
    ∃ len r tok pre post, arbitrate rules cur = some (len, r, tok) ∧ len = tok.length ∧
      rules = pre ++ r :: post ∧ tryMatch r cur = some tok ∧
      (∀ r' ∈ rules, ∀ t', tryMatch r' cur = some t' → t'.length ≤ tok.length) ∧
      (∀ r' ∈ pre, ∀ t', tryMatch r' cur = some t' → t'.length < tok.length) ∧
      (∀ fuel st out, lexFuel (fuel + 1) rules st cur = some out →
        ∃ ln rest, out = (tok, ln) :: rest) := by
  cases harb : arbitrate rules cur with
  | none =>
    rw [arbitrate, arbAux_none_iff] at harb
    exact absurd h1 (by rw [harb (rules.get ⟨i, hi⟩) (rules.get_mem _ _)]; simp)
  | some x =>
    obtain ⟨len, r, tok⟩ := x
    obtain ⟨hlen, pre, post, hdec, hm, hpre, hpost⟩ := arbAux_spec cur rules len r tok harb
    refine ⟨len, r, tok, pre, post, rfl, hlen, hdec, hm, ?_, hpre, ?_⟩
    · intro r' hr' t' ht'
      rw [hdec] at hr'
      rcases List.mem_append.mp hr' with hl | hr''
      · exact le_of_lt (hpre r' hl t' ht')
      · rcases List.mem_cons.mp hr'' with rfl | hr3
        · obtain rfl : tok = t' := by rw [hm] at ht'; simpa using ht'
          exact le_refl _
        · exact hpost r' hr3 t' ht'
    · intro fuel st out hlex
      cases cur with
      | nil => exact absurd rfl hne
      | cons c cs =>
        rw [lexFuel, harb] at hlex
        · simp only [Option.map_eq_some'] at hlex
          obtain ⟨out', hout', rfl⟩ := hlex
          exact ⟨_, out', rfl⟩
        · simp

theorem c1_w :
    ∃ len r tok pre post,
      arbitrate coolRules "inherits foo".toList = some (len, r, tok) ∧ len = tok.length ∧
      coolRules = pre ++ r :: post ∧ tryMatch r "inherits foo".toList = some tok ∧
      (∀ r' ∈ coolRules, ∀ t', tryMatch r' "inherits foo".toList = some t' →
        t'.length ≤ tok.length) ∧
      (∀ r' ∈ pre, ∀ t', tryMatch r' "inherits foo".toList = some t' →
        t'.length < tok.length) ∧
      (∀ fuel st out, lexFuel (fuel + 1) coolRules st "inherits foo".toList = some out →
        ∃ ln rest, out = (tok, ln) :: rest) :=
  c1_maximal_munch coolRules "inherits foo".toList (by decide) 0 27 (by decide) (by decide)
    (by decide) ⟨.keyword .kInherits, 8⟩ ⟨.objectId "inherits".toList, 8⟩
    (by decide) (by decide)
/-- Registered-rule sanity conditions the driver's progress and line
accounting rely on (they hold for the concrete rule set): literal and
keyword spellings are non-empty and contain no newline. -/
def ruleOK : Rule → Bool
  | .literalR lit _ => !lit.isEmpty && !lit.contains '\n'
  | .keywordR mapping => mapping.all (fun e => !e.1.isEmpty && !e.1.contains '\n')
  | _ => true

theorem ccAux_inv (input : List Char) (depth : Int) (lines consumed : Nat) :
    ∃ k, (consumeCommentAux input depth lines consumed).consumed = consumed + k ∧
      k ≤ input.length ∧
      (consumeCommentAux input depth lines consumed).lines =
        lines + countNl (input.take k) := by
  induction input, depth, lines, consumed using consumeCommentAux.induct with
  | case1 depth lines consumed =>
    exact ⟨0, by simp [consumeCommentAux, CmtRes.consumed, CmtRes.lines, countNl]⟩
  | case2 rest depth lines consumed ih =>
    obtain ⟨k, h1, h2, h3⟩ := ih
    refine ⟨k + 2, ?_, ?_, ?_⟩
    · rw [consumeCommentAux, h1]; omega
    · simp; omega
    · rw [consumeCommentAux, h3]
      simp +decide [List.take_succ_cons, countNl_cons]
  | case3 rest depth lines consumed hd =>
    refine ⟨2, ?_, ?_, ?_⟩
    · rw [consumeCommentAux, if_pos hd]; rfl
    · simp
    · rw [consumeCommentAux, if_pos hd]
      simp +decide [List.take_succ_cons, countNl_cons, countNl_nil, CmtRes.lines]
  | case4 rest depth lines consumed hd1 hd2 =>
    refine ⟨2, ?_, ?_, ?_⟩
    · rw [consumeCommentAux, if_neg hd1, if_pos hd2]; rfl
    · simp
    · rw [consumeCommentAux, if_neg hd1, if_pos hd2]
      simp +decide [List.take_succ_cons, countNl_cons, countNl_nil, CmtRes.lines]
  | case5 rest depth lines consumed hd1 hd2 ih =>
    obtain ⟨k, h1, h2, h3⟩ := ih
    refine ⟨k + 2, ?_, ?_, ?_⟩
    · rw [consumeCommentAux, if_neg hd1, if_neg hd2, h1]; omega
    · simp; omega
    · rw [consumeCommentAux, if_neg hd1, if_neg hd2, h3]
      simp +decide [List.take_succ_cons, countNl_cons]
  | case6 rest depth lines consumed ih =>
    obtain ⟨k, h1, h2, h3⟩ := ih
    refine ⟨k + 1, ?_, ?_, ?_⟩
    · rw [consumeCommentAux, h1]; omega
    · simp; omega
    · rw [consumeCommentAux, h3]
      simp +decide [List.take_succ_cons, countNl_cons]
      omega
  | case7 head rest depth lines consumed hno1 hno2 hno3 ih =>
    obtain ⟨k, h1, h2, h3⟩ := ih
    refine ⟨k + 1, ?_, ?_, ?_⟩
    · rw [consumeCommentAux.eq_5 _ _ _ _ _ hno1 hno2 hno3, h1]; omega
    · simp; omega
    · rw [consumeCommentAux.eq_5 _ _ _ _ _ hno1 hno2 hno3, h3]
      have hne : ¬head = '\n' := fun h => hno3 h
      simp [List.take_succ_cons, countNl_cons, hne]
theorem commentScan_open (rest : List Char) :
    commentScan ('(' :: '*' :: rest) = consumeCommentAux rest 1 0 2 := rfl

theorem take2_open (s : List Char) (h : s.take 2 = ['(', '*']) :
    ∃ rest, s = '(' :: '*' :: rest := by
  rcases s with _ | ⟨a, _ | ⟨b, rest⟩⟩ <;> simp_all

theorem tokenLen_pos (r : Rule) (s : List Char) (tok : Token)
    (hok : ruleOK r = true) (hm : tryMatch r s = some tok) : 1 ≤ tok.length := by
  cases r with
  | keywordR mapping =>
    obtain ⟨e, he, hmt, htok, -⟩ := c6_keyword_longest.1 mapping s tok hm
    rw [htok]
    simp only [ruleOK, List.all_eq_true, Bool.and_eq_true, Bool.not_eq_true'] at hok
    have h1 := (hok e he).1
    simp only [List.isEmpty_eq_false] at h1
    cases hx : e.1 with
    | nil => exact absurd hx h1
    | cons a l => simp [hx]
  | literalR lit kind =>
    simp only [tryMatch] at hm
    split at hm
    · injection hm with h
      rw [← h]
      simp only [ruleOK, Bool.and_eq_true, Bool.not_eq_true'] at hok
      have h1 := hok.1
      simp only [List.isEmpty_eq_false] at h1
      cases hx : lit with
      | nil => exact absurd hx h1
      | cons a l => simp [hx]
    · exact absurd hm (by simp)
  | blockCommentR =>
    simp only [tryMatch] at hm
    rw [blockTryMatch.eq_def] at hm
    split at hm
    · injection hm with h
      rw [← h]
      simp
    · split at hm
      · rename_i hne hop
        obtain ⟨rest, rfl⟩ := take2_open s hop
        rw [commentScan_open] at hm
        obtain ⟨k, hk1, -, -⟩ := ccAux_inv rest 1 0 2
        split at hm
        · rename_i cc ll heq
          injection hm with h
          rw [← h]
          rw [heq] at hk1
          simp only [CmtRes.consumed] at hk1
          simp; omega
        · rename_i cc mm ll heq
          injection hm with h
          rw [← h]
          rw [heq] at hk1
          simp only [CmtRes.consumed] at hk1
          simp; omega
      · exact absurd hm (by simp)
  | lineCommentR =>
    simp only [tryMatch] at hm
    split at hm
    · injection hm with h
      rw [← h]
      simp only [Token.length]
      omega
    · exact absurd hm (by simp)
  | stringR =>
    simp only [tryMatch] at hm
    rw [stringTryMatch.eq_def] at hm
    split at hm
    · rename_i rest
      obtain ⟨k, hk1, -, -⟩ := csAux_basic rest 1 0 []
      split at hm
      · rename_i cc v ll heq
        injection hm with h
        rw [← h]
        rw [heq] at hk1
        simp only [StrRes.consumed] at hk1
        simp; omega
      · rename_i cc mm ll rr heq
        injection hm with h
        rw [← h]
        rw [heq] at hk1
        simp only [StrRes.consumed] at hk1
        simp; omega
    · exact absurd hm (by simp)
  | boolTrueR =>
    simp only [tryMatch] at hm
    split at hm
    · split at hm
      · injection hm with h
        rw [← h]
        simp
      · exact absurd hm (by simp)
    · exact absurd hm (by simp)
  | boolFalseR =>
    simp only [tryMatch] at hm
    split at hm
    · split at hm
      · injection hm with h
        rw [← h]
        simp
      · exact absurd hm (by simp)
    · exact absurd hm (by simp)
  | intR =>
    simp only [tryMatch] at hm
    split at hm
    · exact absurd hm (by simp)
    · rename_i hlen
      injection hm with h
      rw [← h]
      simp only [Token.length]
      omega
  | typeIdR =>
    simp only [tryMatch] at hm
    split at hm
    · injection hm with h
      rw [← h]
      simp
    · split at hm
      · split at hm
        · injection hm with h
          rw [← h]
          simp
        · exact absurd hm (by simp)
      · exact absurd hm (by simp)
  | objectIdR =>
    simp only [tryMatch] at hm
    split at hm
    · injection hm with h
      rw [← h]
      simp
    · split at hm
      · split at hm
        · injection hm with h
          rw [← h]
          simp
        · exact absurd hm (by simp)
      · exact absurd hm (by simp)
  | newlineR =>
    simp only [tryMatch] at hm
    split at hm
    · injection hm with h
      rw [← h]
    · exact absurd hm (by simp)
  | whitespaceR =>
    simp only [tryMatch] at hm
    split at hm
    · exact absurd hm (by simp)
    · rename_i hlen
      injection hm with h
      rw [← h]
      simp only [Token.length]
      omega
  | catchAllR =>
    simp only [tryMatch] at hm
    split at hm
    · injection hm with h
      rw [← h]
    · exact absurd hm (by simp)
theorem drop_len_lt (s : List Char) (n : Nat) (hne : s ≠ []) (hn : 1 ≤ n) :
    (s.drop n).length < s.length := by
  rw [List.length_drop]
  cases s with
  | nil => exact absurd rfl hne
  | cons a l => simp; omega

theorem accept_shrinks (r : Rule) (s : List Char) (tok : Token) (st : LexState)
    (hok : ruleOK r = true) (hm : tryMatch r s = some tok) (hne : s ≠ []) :
    (acceptR r tok st s).1.length < s.length := by
  have hpos := tokenLen_pos r s tok hok hm
  cases r with
  | stringR =>
    simp only [acceptR]
    exact drop_len_lt _ _ hne (by omega)
  | blockCommentR =>
    simp only [acceptR]
    exact drop_len_lt _ _ hne hpos
  | lineCommentR =>
    simp only [acceptR]
    split
    · simpa using List.length_pos.mpr hne
    · exact drop_len_lt _ _ hne (by omega)
  | newlineR =>
    simp only [acceptR]
    exact drop_len_lt _ _ hne (by omega)
  | keywordR m => simp only [acceptR]; exact drop_len_lt _ _ hne hpos
  | literalR lit kind => simp only [acceptR]; exact drop_len_lt _ _ hne hpos
  | boolTrueR => simp only [acceptR]; exact drop_len_lt _ _ hne hpos
  | boolFalseR => simp only [acceptR]; exact drop_len_lt _ _ hne hpos
  | intR => simp only [acceptR]; exact drop_len_lt _ _ hne hpos
  | typeIdR => simp only [acceptR]; exact drop_len_lt _ _ hne hpos
  | objectIdR => simp only [acceptR]; exact drop_len_lt _ _ hne hpos
  | whitespaceR => simp only [acceptR]; exact drop_len_lt _ _ hne hpos
  | catchAllR => simp only [acceptR]; exact drop_len_lt _ _ hne hpos

theorem cool_ruleOK : ∀ r ∈ coolRules, ruleOK r = true := by decide

theorem arbitrate_cool_ne (cur : List Char) (hne : cur ≠ []) :
    arbitrate coolRules cur ≠ none := by
  cases cur with
  | nil => exact absurd rfl hne
  | cons c cs =>
    rw [arbitrate]
    intro h
    rw [arbAux_none_iff] at h
    have := h .catchAllR (by decide)
    simp [tryMatch] at this

theorem lexFuel_total : ∀ (fuel : Nat) (st : LexState) (cur : List Char),
    cur.length ≤ fuel → (lexFuel fuel coolRules st cur).isSome := by
  intro fuel
  induction fuel with
  | zero =>
    intro st cur h
    cases cur with
    | nil => simp [lexFuel]
    | cons c cs => simp at h
  | succ fuel ih =>
    intro st cur hlen
    cases cur with
    | nil => simp [lexFuel]
    | cons c cs =>
      cases harb : arbitrate coolRules (c :: cs) with
      | none => exact absurd harb (arbitrate_cool_ne _ (by simp))
      | some x =>
        obtain ⟨len, r, tok⟩ := x
        obtain ⟨hlen2, pre, post, hdec, hmr, -, -⟩ := arbAux_spec _ coolRules len r tok harb
        have hrmem : r ∈ coolRules := by
          rw [hdec]
          exact List.mem_append_right _ (List.mem_cons_self _ _)
        have hok := cool_ruleOK r hrmem
        have hshrink := accept_shrinks r (c :: cs) tok (stepState coolRules st (c :: cs))
          hok hmr (by simp)
        rcases hacc : acceptR r tok (stepState coolRules st (c :: cs)) (c :: cs) with ⟨cur2, st2⟩
        rw [hacc] at hshrink
        rw [lexFuel, harb]
        · simp only [hacc]
          have hrec := ih st2 cur2 (by
            have hlen2 : cs.length + 1 ≤ fuel + 1 := by simpa using hlen
            simp only [List.length_cons] at hshrink
            omega)
          cases hx : lexFuel fuel coolRules st2 cur2 with
          | none => rw [hx] at hrec; exact absurd hrec (by simp)
          | some out => simp [hx]
        · simp

/-- C2: for non-empty remaining input, the slice returned by the
winning rule's `accept` is strictly shorter than the slice it received,
and consequently a scan of an input of length L terminates within L
iterations (fuel L suffices for `Lexer::lex`). -/
theorem c2_progress_termination :
    (∀ (cur : List Char) (st : LexState) (len : Nat) (r : Rule) (tok : Token), cur ≠ [] →
      arbitrate coolRules cur = some (len, r, tok) →
      (acceptR r tok st cur).1.length < cur.length) ∧
    (∀ s : List Char, (lex coolRules s).isSome) := by
  constructor
  · intro cur st len r tok hne harb
    obtain ⟨-, pre, post, hdec, hmr, -, -⟩ := arbAux_spec cur coolRules len r tok harb
    have hrmem : r ∈ coolRules := by
      rw [hdec]
      exact List.mem_append_right _ (List.mem_cons_self _ _)
    exact accept_shrinks r cur tok st (cool_ruleOK r hrmem) hmr hne
  · intro s
    exact lexFuel_total s.length ⟨1, 0⟩ s (le_refl _)

theorem c2_w :
    (acceptR .objectIdR ⟨.objectId "ab".toList, 2⟩ ⟨1, 0⟩ "ab".toList).1.length <
      ("ab".toList).length ∧
    (lex coolRules "ab".toList).isSome :=
  ⟨c2_progress_termination.1 "ab".toList ⟨1, 0⟩ 2 .objectIdR ⟨.objectId "ab".toList, 2⟩
      (by decide) (by decide),
   c2_progress_termination.2 "ab".toList⟩
theorem kwMatchesB_eq (s k : List Char) (h : kwMatchesB s k = true) :
    k.length ≤ s.length ∧ (s.take k.length).map Char.toLower = k.map Char.toLower := by
  simp only [kwMatchesB, Bool.and_eq_true, decide_eq_true_eq, beq_iff_eq] at h
  exact h

theorem klow_kind_cool :
    ∀ e1 ∈ coolKeywords, ∀ e2 ∈ coolKeywords,
      e1.1.map Char.toLower = e2.1.map Char.toLower → e1.2 = e2.2 := by decide

theorem klow_ne_cool :
    ∀ e1 ∈ coolKeywords, ∀ e2 ∈ coolKeywords, e1.1 ≠ e2.1 →
      e1.1.map Char.toLower ≠ e2.1.map Char.toLower := by decide

theorem kwTryMatch_orderInv (l1 l2 : List (List Char × KeywordKind))
    (hmem : ∀ e, e ∈ l1 ↔ e ∈ l2)
    (hlow : ∀ e1 ∈ l1, ∀ e2 ∈ l1, e1.1.map Char.toLower = e2.1.map Char.toLower →
      e1.2 = e2.2) (s : List Char) :
    kwTryMatch l1 s = kwTryMatch l2 s := by
  cases h1 : kwSelect s l1 0 with
  | none =>
    cases h2 : kwSelect s l2 0 with
    | none => simp [kwTryMatch, h1, h2]
    | some e2 =>
      obtain ⟨hmem2, hm2, -, -⟩ := (kwSelect_spec s l2 0).2 e2 h2
      have := ((kwSelect_spec s l1 0).1.mp h1) e2 ((hmem e2).mpr hmem2)
      exact absurd ⟨hm2, Nat.zero_le _⟩ this
  | some e1 =>
    obtain ⟨hmem1, hm1, -, hmax1⟩ := (kwSelect_spec s l1 0).2 e1 h1
    cases h2 : kwSelect s l2 0 with
    | none =>
      have := ((kwSelect_spec s l2 0).1.mp h2) e1 ((hmem e1).mp hmem1)
      exact absurd ⟨hm1, Nat.zero_le _⟩ this
    | some e2 =>
      obtain ⟨hmem2, hm2, -, hmax2⟩ := (kwSelect_spec s l2 0).2 e2 h2
      have hle1 : e1.1.length ≤ e2.1.length :=
        hmax2 e1 ((hmem e1).mp hmem1) hm1 (Nat.zero_le _)
      have hle2 : e2.1.length ≤ e1.1.length :=
        hmax1 e2 ((hmem e2).mpr hmem2) hm2 (Nat.zero_le _)
      have hleneq : e1.1.length = e2.1.length := le_antisymm hle1 hle2
      obtain ⟨-, hlo1⟩ := kwMatchesB_eq s e1.1 hm1
      obtain ⟨-, hlo2⟩ := kwMatchesB_eq s e2.1 hm2
      have hloweq : e1.1.map Char.toLower = e2.1.map Char.toLower := by
        rw [← hlo1, ← hlo2, hleneq]
      have hkind : e1.2 = e2.2 :=
        hlow e1 hmem1 e2 ((hmem e2).mpr hmem2) hloweq
      simp [kwTryMatch, h1, h2, hkind, hleneq]

def ruleEquiv (r1 r2 : Rule) : Prop :=
  (∀ s, tryMatch r1 s = tryMatch r2 s) ∧
  (∀ tok st s, acceptR r1 tok st s = acceptR r2 tok st s) ∧
  (∀ st s, tryEffect r1 st s = tryEffect r2 st s)

theorem ruleEquiv_refl (r : Rule) : ruleEquiv r r :=
  ⟨fun _ => rfl, fun _ _ _ => rfl, fun _ _ => rfl⟩

/-- The relation between accumulator values of the two arbitration
sweeps: same best length and token, equivalent rules. -/
def accRel : Option (Nat × Rule × Token) → Option (Nat × Rule × Token) → Prop
  | none, none => True
  | some b1, some b2 => b1.1 = b2.1 ∧ b1.2.2 = b2.2.2 ∧ ruleEquiv b1.2.1 b2.2.1
  | _, _ => False

theorem arbAux_cons_nomatch {cur : List Char} {r : Rule} {rest : List Rule}
    {b : Option (Nat × Rule × Token)} (h : tryMatch r cur = none) :
    arbAux cur (r :: rest) b = arbAux cur rest b := by
  rw [arbAux, h]

theorem arbAux_cons_first {cur : List Char} {r : Rule} {rest : List Rule} {tok : Token}
    (h : tryMatch r cur = some tok) :
    arbAux cur (r :: rest) none = arbAux cur rest (some (tok.length, r, tok)) := by
  rw [arbAux, h]

theorem arbAux_cons_gt {cur : List Char} {r : Rule} {rest : List Rule} {tok : Token}
    {b : Nat × Rule × Token} (h : tryMatch r cur = some tok) (hgt : tok.length > b.1) :
    arbAux cur (r :: rest) (some b) = arbAux cur rest (some (tok.length, r, tok)) := by
  rw [arbAux, h]
  simp only
  rw [if_pos hgt]

theorem arbAux_cons_le {cur : List Char} {r : Rule} {rest : List Rule} {tok : Token}
    {b : Nat × Rule × Token} (h : tryMatch r cur = some tok) (hgt : ¬tok.length > b.1) :
    arbAux cur (r :: rest) (some b) = arbAux cur rest (some b) := by
  rw [arbAux, h]
  simp only
  rw [if_neg hgt]

theorem arbAux_congr (cur : List Char) :
    ∀ (l1 l2 : List Rule), List.Forall₂ ruleEquiv l1 l2 →
      ∀ b1 b2, accRel b1 b2 → accRel (arbAux cur l1 b1) (arbAux cur l2 b2) := by
  intro l1 l2 hl
  induction hl with
  | nil => intro b1 b2 hb; simpa [arbAux] using hb
  | cons hr hrest ih =>
    intro b1 b2 hb
    rename_i r1 r2 t1 t2
    cases htm : tryMatch r1 cur with
    | none =>
      have htm2 : tryMatch r2 cur = none := by rw [← hr.1]; exact htm
      rw [arbAux_cons_nomatch htm, arbAux_cons_nomatch htm2]
      exact ih b1 b2 hb
    | some tok =>
      have htm2 : tryMatch r2 cur = some tok := by rw [← hr.1]; exact htm
      cases b1 with
      | none =>
        cases b2 with
        | none =>
          rw [arbAux_cons_first htm, arbAux_cons_first htm2]
          exact ih _ _ ⟨rfl, rfl, hr⟩
        | some x => exact False.elim hb
      | some x1 =>
        cases b2 with
        | none => exact False.elim hb
        | some x2 =>
          obtain ⟨ha, ht, hbr⟩ := hb
          by_cases hgt : tok.length > x1.1
          · rw [arbAux_cons_gt htm hgt, arbAux_cons_gt htm2 (ha ▸ hgt)]
            exact ih _ _ ⟨rfl, rfl, hr⟩
          · rw [arbAux_cons_le htm hgt, arbAux_cons_le htm2 (ha ▸ hgt)]
            exact ih _ _ ⟨ha, ht, hbr⟩

theorem stepState_congr (cur : List Char) :
    ∀ (l1 l2 : List Rule), List.Forall₂ ruleEquiv l1 l2 →
      ∀ st, stepState l1 st cur = stepState l2 st cur := by
  intro l1 l2 hl
  induction hl with
  | nil => intro st; rfl
  | cons hr hrest ih =>
    intro st
    rename_i r1 r2 t1 t2
    simp only [stepState, List.foldl_cons]
    rw [hr.2.2 st cur]
    exact ih _

theorem lexFuel_congr :
    ∀ (fuel : Nat) (l1 l2 : List Rule), List.Forall₂ ruleEquiv l1 l2 →
      ∀ (st : LexState) (cur : List Char),
        lexFuel fuel l1 st cur = lexFuel fuel l2 st cur := by
  intro fuel
  induction fuel with
  | zero =>
    intro l1 l2 hl st cur
    cases cur <;> rfl
  | succ fuel ih =>
    intro l1 l2 hl st cur
    cases cur with
    | nil => rfl
    | cons c cs =>
      have harb := arbAux_congr (c :: cs) l1 l2 hl none none trivial
      rw [lexFuel]
      · rw [lexFuel]
        · cases h1 : arbAux (c :: cs) l1 none with
          | none =>
            cases h2 : arbAux (c :: cs) l2 none with
            | none => simp [arbitrate, h1, h2]
            | some x =>
              rw [h1, h2] at harb
              exact False.elim harb
          | some x1 =>
            cases h2 : arbAux (c :: cs) l2 none with
            | none =>
              rw [h1, h2] at harb
              exact False.elim harb
            | some x2 =>
              rw [h1, h2] at harb
              obtain ⟨ha, ht, hre⟩ := harb
              rcases x1 with ⟨a1, r1, t1⟩
              rcases x2 with ⟨a2, r2, t2⟩
              simp only at ha ht hre
              subst ha; subst ht
              simp only [arbitrate, h1, h2]
              rw [stepState_congr (c :: cs) l1 l2 hl st,
                hre.2.1 t1 (stepState l2 st (c :: cs)) (c :: cs)]
              rcases hacc : acceptR r2 t1 (stepState l2 st (c :: cs)) (c :: cs) with ⟨cur2, st2⟩
              simp only
              rw [ih l1 l2 hl st2 cur2]
        · simp
      · simp

/-- C8: scanning is reproducible despite the unordered keyword map: no
two distinct registered keyword spellings of equal length can both be
case-insensitive prefixes of the same input, and `Lexer::lex` over the
registered rule set yields the same output sequence for every iteration
order of the keyword mapping. -/
theorem c8_determinism :
    (∀ e1 ∈ coolKeywords, ∀ e2 ∈ coolKeywords, e1.1 ≠ e2.1 → e1.1.length = e2.1.length →
      ∀ s, ¬(kwMatchesB s e1.1 = true ∧ kwMatchesB s e2.1 = true)) ∧
    (∀ (l : List (List Char × KeywordKind)), (∀ e, e ∈ l ↔ e ∈ coolKeywords) →
      ∀ s, lex (coolRulesWith l) s = lex coolRules s) := by
  constructor
  · rintro e1 h1 e2 h2 hne hlen s ⟨hm1, hm2⟩
    obtain ⟨-, hlo1⟩ := kwMatchesB_eq s e1.1 hm1
    obtain ⟨-, hlo2⟩ := kwMatchesB_eq s e2.1 hm2
    have hlow : e1.1.map Char.toLower = e2.1.map Char.toLower := by
      rw [← hlo1, ← hlo2, hlen]
    exact klow_ne_cool e1 h1 e2 h2 hne hlow
  · intro l hmem s
    have hkw : ruleEquiv (.keywordR l) (.keywordR coolKeywords) := by
      refine ⟨?_, fun _ _ _ => rfl, fun _ _ => rfl⟩
      intro s2
      apply kwTryMatch_orderInv l coolKeywords hmem ?_ s2
      intro e1 he1 e2 he2 hlo
      exact klow_kind_cool e1 ((hmem e1).mp he1) e2 ((hmem e2).mp he2) hlo
    have hall : List.Forall₂ ruleEquiv (coolRulesWith l) (coolRulesWith coolKeywords) := by
      unfold coolRulesWith
      refine List.Forall₂.cons hkw ?_
      exact List.forall₂_same.mpr (fun r _ => ruleEquiv_refl r)
    rw [lex, lex, coolRules]
    exact lexFuel_congr s.length _ _ hall ⟨1, 0⟩ s

theorem c8_w :
    (¬(kwMatchesB "fi x".toList ("fi".toList, KeywordKind.kFi).1 = true ∧
        kwMatchesB "fi x".toList ("if".toList, KeywordKind.kIf).1 = true)) ∧
    lex (coolRulesWith coolKeywords.reverse) "if x".toList = lex coolRules "if x".toList :=
  ⟨c8_determinism.1 ("fi".toList, .kFi) (by decide) ("if".toList, .kIf) (by decide)
      (by decide) (by decide) "fi x".toList,
   c8_determinism.2 coolKeywords.reverse (fun e => by simp [List.mem_reverse]) "if x".toList⟩
theorem drop_norm (cur : List Char) (D : Nat) :
    cur.drop (cur.length - (cur.drop D).length) = cur.drop D := by
  rw [List.length_drop]
  by_cases h : D ≤ cur.length
  · have he : cur.length - (cur.length - D) = D := by omega
    rw [he]
  · have h1 : cur.length - D = 0 := by omega
    rw [h1, Nat.sub_zero, List.drop_length, List.drop_eq_nil_of_le (by omega)]

theorem count_take_norm (cur : List Char) (D : Nat) :
    countNl (cur.take (cur.length - (cur.drop D).length)) = countNl (cur.take D) := by
  rw [List.length_drop]
  by_cases h : D ≤ cur.length
  · have he : cur.length - (cur.length - D) = D := by omega
    rw [he]
  · have h1 : cur.length - D = 0 := by omega
    rw [h1, Nat.sub_zero, List.take_length, List.take_of_length_le (by omega)]

theorem countNl_eq_zero (l : List Char) (h : '\n' ∉ l) : countNl l = 0 :=
  List.count_eq_zero.mpr h

theorem countNl_append (a b : List Char) : countNl (a ++ b) = countNl a + countNl b := by
  simp [countNl, List.count_append]

theorem take_takeWhile_eq (p : Char → Bool) (l : List Char) :
    l.take (l.takeWhile p).length = l.takeWhile p := by
  have h := List.takeWhile_append_dropWhile (p := p) (l := l)
  calc l.take (l.takeWhile p).length
      = (l.takeWhile p ++ l.dropWhile p).take (l.takeWhile p).length := by rw [h]
    _ = l.takeWhile p := List.take_left _ _

theorem countNl_takeWhile (p : Char → Bool) (l : List Char) (hp : p '\n' = false) :
    countNl (l.takeWhile p) = 0 := by
  apply countNl_eq_zero
  intro hmem
  have := List.mem_takeWhile_imp hmem
  rw [hp] at this
  exact absurd this (by simp)

theorem takeWhile_stop (p : Char → Bool) (l : List Char)
    (h : (l.takeWhile p).length < l.length) :
    ∃ c, p c = false ∧
      l.take ((l.takeWhile p).length + 1) = l.takeWhile p ++ [c] := by
  induction l with
  | nil => simp at h
  | cons a t ih =>
    by_cases hpa : p a
    · rw [List.takeWhile_cons_of_pos hpa] at h ⊢
      simp only [List.length_cons, List.take_succ_cons] at h ⊢
      obtain ⟨c, hc1, hc2⟩ := ih (by omega)
      exact ⟨c, hc1, by rw [hc2]; rfl⟩
    · rw [List.takeWhile_cons_of_neg hpa]
      exact ⟨a, by simpa using hpa, by simp⟩
/-- Newlines consumed beyond the token span that the committing rule
does not count: the newlines inside a string error's recovery-skip
region. -/
def uncountedNl (r : Rule) (tok : Token) (cur : List Char) : Nat :=
  match r with
  | .stringR =>
    match (stringScanInfo cur).2 with
    | some rec => countNl ((cur.drop tok.length).take rec)
    | none => 0
  | _ => 0

/-- The line delta a bare `*)` error token re-applies: the block-comment
rule's `number_of_lines` left over from its most recent scan. -/
def staleCloserNl (r : Rule) (cur : List Char) (st : LexState) : Nat :=
  match r with
  | .blockCommentR => if cur.take 2 = ['*', ')'] then st.blockLines else 0
  | _ => 0

theorem stepState_cool (st : LexState) (cur : List Char) :
    stepState coolRules st cur =
      if cur.take 2 = ['(', '*'] then { st with blockLines := (commentScan cur).lines }
      else st := by
  simp only [stepState, coolRules, coolRulesWith, List.foldl_cons, List.foldl_nil, tryEffect]
  by_cases h1 : cur.take 2 = ['*', ')']
  · simp [h1]
  · by_cases h2 : cur.take 2 = ['(', '*']
    · simp [h1, h2]
    · simp [h1, h2]

theorem stringScan_lines (s : List Char) (tok : Token) (hm : stringTryMatch s = some tok) :
    (stringScanInfo s).1 = countNl (s.take tok.length) ∧ 1 ≤ tok.length := by
  match s with
  | [] => exact absurd hm (by simp [stringTryMatch])
  | c0 :: rest =>
    by_cases hq : c0 = '"'
    · subst hq
      obtain ⟨k, hk1, hk2, hk3⟩ := csAux_basic rest 1 0 []
      rw [stringTryMatch_quote] at hm
      cases hres : consumeStringAux rest 1 0 [] with
      | ok cc v ll =>
        rw [hres] at hm
        injection hm with h
        rw [← h]
        rw [hres] at hk1 hk3
        simp only [StrRes.consumed, StrRes.lines] at hk1 hk3
        have hinfo : stringScanInfo ('"' :: rest) = (ll, none) := by
          simp [stringScanInfo, hres]
        rw [hinfo]
        subst hk1
        constructor
        · simp only
          rw [show (1 : Nat) + k = k + 1 by omega, List.take_succ_cons, countNl_cons, hk3]
          simp +decide
        · simp
      | er cc m ll rr =>
        rw [hres] at hm
        injection hm with h
        rw [← h]
        rw [hres] at hk1 hk3
        simp only [StrRes.consumed, StrRes.lines] at hk1 hk3
        have hinfo : stringScanInfo ('"' :: rest) = (ll, rr) := by
          simp [stringScanInfo, hres]
        rw [hinfo]
        subst hk1
        constructor
        · simp only
          rw [show (1 : Nat) + k = k + 1 by omega, List.take_succ_cons, countNl_cons, hk3]
          simp +decide
        · simp
    · exact absurd hm (by simp [stringTryMatch_noQuote c0 rest hq])
theorem countNl_take_add (cur : List Char) (m n : Nat) :
    countNl (cur.take (m + n)) = countNl (cur.take m) + countNl ((cur.drop m).take n) := by
  rw [List.take_add, countNl_append]

theorem cool_keys_lower_no_nl : ∀ e ∈ coolKeywords, '\n' ∉ e.1.map Char.toLower := by decide

theorem commentScan_lines (cur : List Char) :
    (commentScan cur).lines = countNl (cur.take (commentScan cur).consumed) := by
  obtain ⟨k, h1, h2, h3⟩ := ccAux_inv cur 0 0 0
  have hc : commentScan cur = consumeCommentAux cur 0 0 0 := rfl
  rw [hc, h1, h3]
  simp

theorem c3_keyword_case (cur : List Char) (tok : Token) (st1 : LexState)
    (hm : tryMatch (.keywordR coolKeywords) cur = some tok) :
    acceptR (.keywordR coolKeywords) tok st1 cur = (cur.drop tok.length, st1) ∧
    countNl (cur.take tok.length) = 0 := by
  refine ⟨rfl, ?_⟩
  obtain ⟨e, he, hmt, htok, -⟩ := c6_keyword_longest.1 coolKeywords cur tok hm
  obtain ⟨hle, hlo⟩ := kwMatchesB_eq cur e.1 hmt
  rw [htok]
  simp only [Token.length]
  apply countNl_eq_zero
  intro hmem
  have h2 : Char.toLower '\n' ∈ (cur.take e.1.length).map Char.toLower :=
    List.mem_map_of_mem _ hmem
  rw [hlo, show Char.toLower '\n' = '\n' from by decide] at h2
  exact cool_keys_lower_no_nl e he h2

theorem c3_literal_case (lit : List Char) (kind : TokenKind) (cur : List Char) (tok : Token)
    (st1 : LexState) (hnl : countNl lit = 0)
    (hm : tryMatch (.literalR lit kind) cur = some tok) :
    acceptR (.literalR lit kind) tok st1 cur = (cur.drop tok.length, st1) ∧
    countNl (cur.take tok.length) = 0 := by
  refine ⟨rfl, ?_⟩
  simp only [tryMatch] at hm
  split at hm
  · rename_i hcond
    injection hm with h
    rw [← h]
    simp only [Token.length]
    rw [hcond.2]
    exact hnl
  · exact absurd hm (by simp)
theorem c3_boolTrue_case (cur : List Char) (tok : Token) (st1 : LexState)
    (hm : tryMatch .boolTrueR cur = some tok) :
    acceptR .boolTrueR tok st1 cur = (cur.drop tok.length, st1) ∧
    countNl (cur.take tok.length) = 0 := by
  refine ⟨rfl, ?_⟩
  simp only [tryMatch] at hm
  split at hm
  · split at hm
    · rename_i t a b c rest hcond
      injection hm with h
      rw [← h]
      simp only [Token.length]
      obtain ⟨ha, hb, hc⟩ := hcond
      have hna : ¬a = '\n' := by intro hx; rw [hx] at ha; exact absurd ha (by decide)
      have hnb : ¬b = '\n' := by intro hx; rw [hx] at hb; exact absurd hb (by decide)
      have hnc : ¬c = '\n' := by intro hx; rw [hx] at hc; exact absurd hc (by decide)
      simp +decide [List.take_succ_cons, countNl_cons, countNl_nil, hna, hnb, hnc]
    · exact absurd hm (by simp)
  · exact absurd hm (by simp)

theorem c3_boolFalse_case (cur : List Char) (tok : Token) (st1 : LexState)
    (hm : tryMatch .boolFalseR cur = some tok) :
    acceptR .boolFalseR tok st1 cur = (cur.drop tok.length, st1) ∧
    countNl (cur.take tok.length) = 0 := by
  refine ⟨rfl, ?_⟩
  simp only [tryMatch] at hm
  split at hm
  · split at hm
    · rename_i t a b c d rest hcond
      injection hm with h
      rw [← h]
      simp only [Token.length]
      obtain ⟨ha, hb, hc, hd⟩ := hcond
      have hna : ¬a = '\n' := by intro hx; rw [hx] at ha; exact absurd ha (by decide)
      have hnb : ¬b = '\n' := by intro hx; rw [hx] at hb; exact absurd hb (by decide)
      have hnc : ¬c = '\n' := by intro hx; rw [hx] at hc; exact absurd hc (by decide)
      have hnd : ¬d = '\n' := by intro hx; rw [hx] at hd; exact absurd hd (by decide)
      simp +decide [List.take_succ_cons, countNl_cons, countNl_nil, hna, hnb, hnc, hnd]
    · exact absurd hm (by simp)
  · exact absurd hm (by simp)

theorem c3_takeWhile_span (p : Char → Bool) (cur : List Char) (hp : p '\n' = false) :
    countNl (cur.take (cur.takeWhile p).length) = 0 := by
  rw [take_takeWhile_eq]
  exact countNl_takeWhile p cur hp

theorem c3_int_case (cur : List Char) (tok : Token) (st1 : LexState)
    (hm : tryMatch .intR cur = some tok) :
    acceptR .intR tok st1 cur = (cur.drop tok.length, st1) ∧
    countNl (cur.take tok.length) = 0 := by
  refine ⟨rfl, ?_⟩
  simp only [tryMatch] at hm
  split at hm
  · exact absurd hm (by simp)
  · injection hm with h
    rw [← h]
    simp only [Token.length]
    exact c3_takeWhile_span isDigitCh cur (by decide)

theorem c3_whitespace_case (cur : List Char) (tok : Token) (st1 : LexState)
    (hm : tryMatch .whitespaceR cur = some tok) :
    acceptR .whitespaceR tok st1 cur = (cur.drop tok.length, st1) ∧
    countNl (cur.take tok.length) = 0 := by
  refine ⟨rfl, ?_⟩
  simp only [tryMatch] at hm
  split at hm
  · exact absurd hm (by simp)
  · injection hm with h
    rw [← h]
    simp only [Token.length]
    exact c3_takeWhile_span isWsClass cur (by decide)

theorem c3_typeId_case (cur : List Char) (tok : Token) (st1 : LexState)
    (hm : tryMatch .typeIdR cur = some tok) :
    acceptR .typeIdR tok st1 cur = (cur.drop tok.length, st1) ∧
    countNl (cur.take tok.length) = 0 := by
  refine ⟨rfl, ?_⟩
  simp only [tryMatch] at hm
  split at hm
  · rename_i hcond
    injection hm with h
    rw [← h]
    simp only [Token.length]
    rw [hcond]
    decide
  · split at hm
    · split at hm
      · rename_i s0 chead ctail hnelit hup
        injection hm with h
        rw [← h]
        simp only [Token.length, List.length_cons]
        rw [List.take_succ_cons, countNl_cons]
        have hnc : ¬chead = '\n' := by
          intro hx
          rw [hx] at hup
          exact absurd hup (by decide)
        simp [hnc, c3_takeWhile_span isWordCh ctail (by decide)]
      · exact absurd hm (by simp)
    · exact absurd hm (by simp)

theorem c3_objectId_case (cur : List Char) (tok : Token) (st1 : LexState)
    (hm : tryMatch .objectIdR cur = some tok) :
    acceptR .objectIdR tok st1 cur = (cur.drop tok.length, st1) ∧
    countNl (cur.take tok.length) = 0 := by
  refine ⟨rfl, ?_⟩
  simp only [tryMatch] at hm
  split at hm
  · rename_i hcond
    injection hm with h
    rw [← h]
    simp only [Token.length]
    rw [hcond]
    decide
  · split at hm
    · split at hm
      · rename_i s0 chead ctail hnelit hlow
        injection hm with h
        rw [← h]
        simp only [Token.length, List.length_cons]
        rw [List.take_succ_cons, countNl_cons]
        have hnc : ¬chead = '\n' := by
          intro hx
          rw [hx] at hlow
          exact absurd hlow (by decide)
        simp [hnc, c3_takeWhile_span isWordCh ctail (by decide)]
      · exact absurd hm (by simp)
    · exact absurd hm (by simp)
theorem c3_newline_case (cur : List Char) (tok : Token) (st1 : LexState)
    (hm : tryMatch .newlineR cur = some tok) :
    acceptR .newlineR tok st1 cur = (cur.drop 1, { st1 with line := st1.line + 1 }) ∧
    countNl (cur.take 1) = 1 := by
  refine ⟨rfl, ?_⟩
  simp only [tryMatch] at hm
  split at hm
  · simp +decide [List.take_succ_cons, countNl_cons, countNl_nil]
  · exact absurd hm (by simp)

theorem c3_lineComment_case (cur : List Char) (tok : Token) (st1 : LexState)
    (hm : tryMatch .lineCommentR cur = some tok) :
    ∃ D d, acceptR .lineCommentR tok st1 cur =
        (cur.drop D, { st1 with line := st1.line + d }) ∧
      countNl (cur.take D) = d := by
  simp only [tryMatch] at hm
  split at hm
  · rename_i s0 rest
    injection hm with h
    by_cases hend : ('-' :: '-' :: rest).length ≤ tok.length
    · refine ⟨('-' :: '-' :: rest).length, 0, ?_, ?_⟩
      · simp only [acceptR, if_pos hend]
        rw [List.drop_length]
        simp
      · rw [List.take_length]
        rw [← h] at hend
        simp only [Token.length, List.length_cons] at hend
        have hpref : rest.takeWhile (fun c => c ≠ '\n') = rest := by
          apply List.IsPrefix.eq_of_length (List.takeWhile_prefix _)
          have hple := (List.takeWhile_prefix (fun c => decide (c ≠ '\n'))
            (l := rest)).length_le
          omega
        rw [countNl_cons, countNl_cons, ← hpref]
        rw [countNl_takeWhile _ _ (by simp)]
        simp +decide
    · refine ⟨tok.length + 1, 1, ?_, ?_⟩
      · simp only [acceptR, if_neg hend]
      · rw [← h]
        simp only [Token.length]
        have hlt : (rest.takeWhile (fun c => c ≠ '\n')).length < rest.length := by
          rw [← h] at hend
          simp only [Token.length, List.length_cons] at hend
          omega
        obtain ⟨c, hc1, hc2⟩ := takeWhile_stop _ rest hlt
        have hcnl : c = '\n' := by simpa using hc1
        have hre : 2 + (rest.takeWhile (fun c => c ≠ '\n')).length + 1 =
            ((rest.takeWhile (fun c => c ≠ '\n')).length + 1) + 1 + 1 := by omega
        rw [hre, List.take_succ_cons, List.take_succ_cons, hc2, countNl_cons, countNl_cons,
          countNl_append, hcnl]
        rw [countNl_takeWhile _ _ (by simp)]
        simp +decide [countNl_cons, countNl_nil]
  · exact absurd hm (by simp)
theorem c3_string_case (cur : List Char) (tok : Token) (st1 : LexState)
    (hm : tryMatch .stringR cur = some tok) :
    ∃ D d, acceptR .stringR tok st1 cur =
        (cur.drop D, { st1 with line := st1.line + d }) ∧
      d + uncountedNl .stringR tok cur = countNl (cur.take D) := by
  obtain ⟨hlines, -⟩ := stringScan_lines cur tok (by simpa [tryMatch] using hm)
  refine ⟨tok.length + ((stringScanInfo cur).2.getD 0), (stringScanInfo cur).1, rfl, ?_⟩
  cases hrec : (stringScanInfo cur).2 with
  | none =>
    simp only [uncountedNl, hrec, Option.getD_none]
    rw [hlines]
    simp
  | some rec =>
    simp only [uncountedNl, hrec, Option.getD_some]
    rw [countNl_take_add, hlines]

theorem blockTryMatch_bare (cur : List Char) (tok : Token)
    (hm : blockTryMatch cur = some tok) (hbare : cur.take 2 = ['*', ')']) :
    tok = ⟨.error msgUnmatched, 2⟩ := by
  rw [blockTryMatch, if_pos hbare] at hm
  simpa using hm.symm

theorem blockTryMatch_scan (cur : List Char) (tok : Token)
    (hm : blockTryMatch cur = some tok) (hopen : cur.take 2 = ['(', '*']) :
    tok.length = (commentScan cur).consumed := by
  rw [blockTryMatch, if_neg (by rw [hopen]; decide), if_pos hopen] at hm
  cases hres : commentScan cur with
  | ok cc ll =>
    rw [hres] at hm
    injection hm with h
    rw [← h]
    rfl
  | er cc m ll =>
    rw [hres] at hm
    injection hm with h
    rw [← h]
    rfl

theorem blockTryMatch_shape (cur : List Char) (tok : Token)
    (hm : blockTryMatch cur = some tok) :
    cur.take 2 = ['*', ')'] ∨ cur.take 2 = ['(', '*'] := by
  by_cases h1 : cur.take 2 = ['*', ')']
  · exact Or.inl h1
  · by_cases h2 : cur.take 2 = ['(', '*']
    · exact Or.inr h2
    · rw [blockTryMatch, if_neg h1, if_neg h2] at hm
      exact absurd hm (by simp)

theorem coolRules_catchAll_pre (pre post : List Rule)
    (h : coolRules = pre ++ .catchAllR :: post) : Rule.newlineR ∈ pre := by
  have hk : coolRules.get? pre.length = some Rule.catchAllR := by
    rw [h]
    rw [List.get?_append_right (le_refl _)]
    simp
  have hlt : pre.length < 31 := by
    by_contra hge
    rw [List.get?_eq_none.mpr (by simpa [coolRules, coolRulesWith] using
      (by omega : 31 ≤ pre.length))] at hk
    exact absurd hk (by simp)
  have h30 : ∀ k, k < 31 → coolRules.get? k = some Rule.catchAllR → k = 30 := by decide
  have hpl : pre.length = 30 := h30 _ hlt hk
  have hpre : pre = coolRules.take 30 := by
    rw [h, ← hpl, List.take_left]
  rw [hpre]
  decide
theorem c3_assemble (cur : List Char) (st1 st2 : LexState) (D d u stale : Nat)
    (hline : st2.line = st1.line + d)
    (hcnt : d + u = stale + countNl (cur.take D)) :
    cur.drop D = cur.drop (cur.length - (cur.drop D).length) ∧
    st2.line + u = st1.line + stale + countNl (cur.take (cur.length - (cur.drop D).length)) := by
  refine ⟨(drop_norm cur D).symm, ?_⟩
  rw [count_take_norm, hline]
  omega

theorem keywordR_mem_cool (m : List (List Char × KeywordKind))
    (h : Rule.keywordR m ∈ coolRules) : m = coolKeywords := by
  simp [coolRules, coolRulesWith] at h
  exact h

theorem literalR_mem_cool (lit : List Char) (kind : TokenKind)
    (h : Rule.literalR lit kind ∈ coolRules) : countNl lit = 0 := by
  have hok := cool_ruleOK _ h
  simp only [ruleOK, Bool.and_eq_true, Bool.not_eq_true'] at hok
  apply countNl_eq_zero
  intro hmem
  have : lit.contains '\n' = true := List.elem_iff.mpr hmem
  rw [hok.2] at this
  exact absurd this (by simp)

/-- C3 (amended): every committed token advances the line counter by
exactly the number of newline characters in its consumed span, except
that (a) newlines inside a string error's recovery-skip region are not
counted, and (b) a bare `*)` unmatched-closer error token re-applies
the block-comment rule's most recent scan's newline count (the stale
`number_of_lines`).  Stated per driver iteration: the winning rule's
commit consumes a prefix and the new line number satisfies the adjusted
count. -/
theorem c3_line_accounting (cur : List Char) (st st1 : LexState) (len : Nat) (r : Rule)
    (tok : Token) (cur2 : List Char) (st2 : LexState)
    (harb : arbitrate coolRules cur = some (len, r, tok))
    (hst1 : st1 = stepState coolRules st cur)
    (hacc : acceptR r tok st1 cur = (cur2, st2)) :
    cur2 = cur.drop (cur.length - cur2.length) ∧
    st2.line + uncountedNl r tok cur =
      st1.line + staleCloserNl r cur st1 + countNl (cur.take (cur.length - cur2.length)) := by
  obtain ⟨hlen2, pre, post, hdec, hmr, hpre, hpost⟩ := arbAux_spec cur coolRules len r tok harb
  have hrmem : r ∈ coolRules := by
    rw [hdec]
    exact List.mem_append_right _ (List.mem_cons_self _ _)
  cases r with
  | keywordR m =>
    obtain rfl := keywordR_mem_cool m hrmem
    obtain ⟨hacc2, hcnt⟩ := c3_keyword_case cur tok st1 hmr
    rw [hacc2] at hacc
    injection hacc with h1 h2
    subst h1; subst h2
    simp only [uncountedNl, staleCloserNl]
    exact c3_assemble cur st1 st1 tok.length 0 0 0 rfl (by omega)
  | literalR lit kind =>
    have hnl := literalR_mem_cool lit kind hrmem
    obtain ⟨hacc2, hcnt⟩ := c3_literal_case lit kind cur tok st1 hnl hmr
    rw [hacc2] at hacc
    injection hacc with h1 h2
    subst h1; subst h2
    simp only [uncountedNl, staleCloserNl]
    exact c3_assemble cur st1 st1 tok.length 0 0 0 rfl (by omega)
  | boolTrueR =>
    obtain ⟨hacc2, hcnt⟩ := c3_boolTrue_case cur tok st1 hmr
    rw [hacc2] at hacc
    injection hacc with h1 h2
    subst h1; subst h2
    simp only [uncountedNl, staleCloserNl]
    exact c3_assemble cur st1 st1 tok.length 0 0 0 rfl (by omega)
  | boolFalseR =>
    obtain ⟨hacc2, hcnt⟩ := c3_boolFalse_case cur tok st1 hmr
    rw [hacc2] at hacc
    injection hacc with h1 h2
    subst h1; subst h2
    simp only [uncountedNl, staleCloserNl]
    exact c3_assemble cur st1 st1 tok.length 0 0 0 rfl (by omega)
  | intR =>
    obtain ⟨hacc2, hcnt⟩ := c3_int_case cur tok st1 hmr
    rw [hacc2] at hacc
    injection hacc with h1 h2
    subst h1; subst h2
    simp only [uncountedNl, staleCloserNl]
    exact c3_assemble cur st1 st1 tok.length 0 0 0 rfl (by omega)
  | whitespaceR =>
    obtain ⟨hacc2, hcnt⟩ := c3_whitespace_case cur tok st1 hmr
    rw [hacc2] at hacc
    injection hacc with h1 h2
    subst h1; subst h2
    simp only [uncountedNl, staleCloserNl]
    exact c3_assemble cur st1 st1 tok.length 0 0 0 rfl (by omega)
  | typeIdR =>
    obtain ⟨hacc2, hcnt⟩ := c3_typeId_case cur tok st1 hmr
    rw [hacc2] at hacc
    injection hacc with h1 h2
    subst h1; subst h2
    simp only [uncountedNl, staleCloserNl]
    exact c3_assemble cur st1 st1 tok.length 0 0 0 rfl (by omega)
  | objectIdR =>
    obtain ⟨hacc2, hcnt⟩ := c3_objectId_case cur tok st1 hmr
    rw [hacc2] at hacc
    injection hacc with h1 h2
    subst h1; subst h2
    simp only [uncountedNl, staleCloserNl]
    exact c3_assemble cur st1 st1 tok.length 0 0 0 rfl (by omega)
  | newlineR =>
    obtain ⟨hacc2, hcnt⟩ := c3_newline_case cur tok st1 hmr
    rw [hacc2] at hacc
    injection hacc with h1 h2
    subst h1; subst h2
    simp only [uncountedNl, staleCloserNl]
    exact c3_assemble cur st1 { st1 with line := st1.line + 1 } 1 1 0 0 rfl (by omega)
  | lineCommentR =>
    obtain ⟨D, d, hacc2, hcnt⟩ := c3_lineComment_case cur tok st1 hmr
    rw [hacc2] at hacc
    injection hacc with h1 h2
    subst h1; subst h2
    simp only [uncountedNl, staleCloserNl]
    exact c3_assemble cur st1 { st1 with line := st1.line + d } D d 0 0 rfl (by omega)
  | stringR =>
    obtain ⟨D, d, hacc2, hcnt⟩ := c3_string_case cur tok st1 hmr
    rw [hacc2] at hacc
    injection hacc with h1 h2
    subst h1; subst h2
    simp only [staleCloserNl]
    exact c3_assemble cur st1 { st1 with line := st1.line + d } D d (uncountedNl .stringR tok cur) 0 rfl (by omega)
  | catchAllR =>
    have hc : ∃ c cs, cur = c :: cs ∧ tok = ⟨.error [c], 1⟩ := by
      simp only [tryMatch] at hmr
      split at hmr
      · rename_i c cs
        injection hmr with h
        exact ⟨c, cs, rfl, h.symm⟩
      · exact absurd hmr (by simp)
    obtain ⟨c, cs, rfl, rfl⟩ := hc
    have hcne : ¬c = '\n' := by
      intro hx
      subst hx
      have hnlmem := coolRules_catchAll_pre pre post hdec
      have := hpre .newlineR hnlmem ⟨.whitespace, 1⟩ (by simp [tryMatch])
      simp at this
    simp only [acceptR] at hacc
    injection hacc with h1 h2
    subst h1; subst h2
    simp only [uncountedNl, staleCloserNl]
    refine c3_assemble (c :: cs) st1 st1 1 0 0 0 rfl ?_
    rw [List.take_succ_cons, List.take_zero, countNl_cons]
    simp [hcne, countNl_nil]
  | blockCommentR =>
    rcases blockTryMatch_shape cur tok (by simpa [tryMatch] using hmr) with hbare | hopen
    · obtain rfl := blockTryMatch_bare cur tok (by simpa [tryMatch] using hmr) hbare
      simp only [acceptR] at hacc
      injection hacc with h1 h2
      subst h1; subst h2
      simp only [uncountedNl, staleCloserNl, if_pos hbare]
      refine c3_assemble cur st1 { st1 with line := st1.line + st1.blockLines } 2
        st1.blockLines 0 st1.blockLines rfl ?_
      rw [hbare, show countNl ['*', ')'] = 0 from by decide]
    · have htl := blockTryMatch_scan cur tok (by simpa [tryMatch] using hmr) hopen
      have hbl : st1.blockLines = (commentScan cur).lines := by
        rw [hst1, stepState_cool, if_pos hopen]
      simp only [acceptR] at hacc
      injection hacc with h1 h2
      subst h1; subst h2
      simp only [uncountedNl, staleCloserNl, if_neg (by rw [hopen]; decide : ¬cur.take 2 = ['*', ')'])]
      refine c3_assemble cur st1 { st1 with line := st1.line + st1.blockLines } tok.length
        st1.blockLines 0 0 rfl ?_
      rw [hbl, htl]
      simpa using commentScan_lines cur

/-- C3 counterexample: lexing `"a<NUL>b<newline>x` commits a string
error token whose accept consumes the 5-character prefix — including
the newline inside the recovery-skip region — without bumping the line
counter, so the following token is snapshotted at line 1 although
1 plus the newlines consumed by previous commits is 2. -/
theorem c3_counter :
    lex coolRules "\"a\x00b\nx".toList =
      some [(⟨.error msgNullString, 2⟩, 1), (⟨.objectId ['x'], 1⟩, 1)] ∧
    (acceptR .stringR ⟨.error msgNullString, 2⟩ ⟨1, 0⟩ ("\"a\x00b\nx".toList)).1 = ['x'] ∧
    countNl (("\"a\x00b\nx".toList).take 5) = 1 ∧
    (1 : Nat) + countNl (("\"a\x00b\nx".toList).take 5) ≠ 1 := by
  decide

theorem c3_w :
    (['x'] : List Char) =
      ("\"a\x00b\nx".toList).drop
        (("\"a\x00b\nx".toList).length - (['x'] : List Char).length) ∧
    (⟨1, 0⟩ : LexState).line +
        uncountedNl .stringR ⟨.error msgNullString, 2⟩ ("\"a\x00b\nx".toList) =
      (stepState coolRules ⟨1, 0⟩ ("\"a\x00b\nx".toList)).line +
        staleCloserNl .stringR ("\"a\x00b\nx".toList)
          (stepState coolRules ⟨1, 0⟩ ("\"a\x00b\nx".toList)) +
        countNl (("\"a\x00b\nx".toList).take
          (("\"a\x00b\nx".toList).length - (['x'] : List Char).length)) :=
  c3_line_accounting ("\"a\x00b\nx".toList) ⟨1, 0⟩
    (stepState coolRules ⟨1, 0⟩ ("\"a\x00b\nx".toList)) 2 .stringR
    ⟨.error msgNullString, 2⟩ ['x'] ⟨1, 0⟩ (by decide) rfl (by decide)
